import Mathlib

/-
Verification development for the five linked-list variants of this repository:
first.rs (ExclusiveStack), second.rs (IterableStack), third.rs (PersistentList),
fourth.rs (SharedDeque), fifth.rs (ExclusiveQueue).

Each Rust type and operation is translated into a Lean definition.  Methods
that take `&mut self` are translated as functions returning the updated
receiver (paired with the return value where the method returns one).  The two
pointer-heavy variants (fourth.rs and fifth.rs) are embedded with an explicit
heap: an association list from addresses (Nat) to node records, so that raw
pointers, reference counts and deallocation are visible in the model.
-/

set_option autoImplicit false

namespace TooManyLists

/-! ## first.rs — ExclusiveStack

`enum Link { Empty, More(Box<Node>) }`, `struct Node { val: i32, next: Link }`,
`struct List { head: Link }`.  The element type is `i32`, modelled as `Int`
(no arithmetic is performed on elements, so wrapping plays no role). -/

mutual

inductive Link1 : Type where
  | Empty : Link1
  | More : Node1 → Link1

inductive Node1 : Type where
  | mk : Int → Link1 → Node1

end

/-- `struct List { head: Link }` of first.rs (named `List1` here because the
five files each declare their own `List`). -/
structure List1 where
  head : Link1

/-- `List::new` of first.rs. -/
def List1.new : List1 := ⟨Link1.Empty⟩

/-- `List::push` of first.rs: `mem::replace` takes the old head out and the
new boxed node becomes the head with the old head as its `next`. -/
def List1.push (l : List1) (elem : Int) : List1 :=
  ⟨Link1.More (Node1.mk elem l.head)⟩

/-- `List::pop` of first.rs: `mem::replace(&mut self.head, Empty)` then match;
on `Empty` the head stays `Empty` and `None` is returned, on `More(node)` the
head becomes `node.next` and `Some(node.val)` is returned. -/
def List1.pop (l : List1) : Option Int × List1 :=
  match l.head with
  | Link1.Empty => (none, ⟨Link1.Empty⟩)
  | Link1.More (Node1.mk v next) => (some v, ⟨next⟩)

mutual

/-- Values stored along a first.rs link chain, head first. -/
def linkToList1 : Link1 → List Int
  | Link1.Empty => []
  | Link1.More n => nodeToList1 n

def nodeToList1 : Node1 → List Int
  | Node1.mk v next => v :: linkToList1 next

end

/-- Pushing a list of values in order (`foldl` = successive `push` calls). -/
def pushAll1 (l : List1) (vs : List Int) : List1 :=
  vs.foldl List1.push l

/-- Calling `pop` `n` times, collecting the returned options in call order. -/
def popN1 : List1 → Nat → List (Option Int) × List1
  | l, 0 => ([], l)
  | l, n + 1 =>
    let r := l.pop
    let rest := popN1 r.2 n
    (r.1 :: rest.1, rest.2)

theorem linkToList1_pushAll (vs : List Int) : ∀ l : List1,
    linkToList1 (pushAll1 l vs).head = vs.reverse ++ linkToList1 l.head := by
  induction vs with
  | nil => intro l; simp [pushAll1]
  | cons v vs ih =>
    intro l
    have h := ih (l.push v)
    simp only [pushAll1, List.foldl_cons] at h ⊢
    rw [h]
    simp [List1.push, linkToList1, nodeToList1]

mutual

theorem popN1_drains_link : ∀ lk : Link1,
    popN1 ⟨lk⟩ (linkToList1 lk).length = ((linkToList1 lk).map some, List1.new)
  | Link1.Empty => by simp [linkToList1, popN1, List1.new]
  | Link1.More n => by
      have h := popN1_drains_node n
      simpa [linkToList1] using h

theorem popN1_drains_node : ∀ n : Node1,
    popN1 ⟨Link1.More n⟩ (nodeToList1 n).length = ((nodeToList1 n).map some, List1.new)
  | Node1.mk v next => by
      have h := popN1_drains_link next
      simp [nodeToList1, popN1, List1.pop, h]

end

/-! ## second.rs — IterableStack

`type Link<T> = Option<Box<Node<T>>>`, `struct Node<T> { val: T, next: Link<T> }`,
`struct List<T> { head: Link<T> }`, plus `IntoIter`, `Iter`, `IterMut`.
References collapse to values in the embedding; `&mut self` methods return the
updated receiver. -/

inductive Node2 (α : Type) : Type where
  | mk : α → Option (Node2 α) → Node2 α

/-- `type Link<T> = Option<Box<Node<T>>>` of second.rs. -/
abbrev Link2 (α : Type) := Option (Node2 α)

def Node2.val {α : Type} : Node2 α → α
  | Node2.mk v _ => v

def Node2.next {α : Type} : Node2 α → Link2 α
  | Node2.mk _ n => n

/-- `struct List<T> { head: Link<T> }` of second.rs. -/
structure List2 (α : Type) where
  head : Link2 α

variable {α : Type}

def List2.new : List2 α := ⟨none⟩

/-- `List::push` of second.rs: `self.head.take()` into the new node's `next`,
then `self.head.replace(new_node)`. -/
def List2.push (l : List2 α) (i : α) : List2 α :=
  ⟨some (Node2.mk i l.head)⟩

/-- `List::pop` of second.rs: `self.head.take().map(|node| { self.head = node.next; node.val })`. -/
def List2.pop (l : List2 α) : Option α × List2 α :=
  match l.head with
  | none => (none, ⟨none⟩)
  | some (Node2.mk v next) => (some v, ⟨next⟩)

/-- `List::peek` of second.rs: value behind the returned `Option<&T>`. -/
def List2.peek (l : List2 α) : Option α :=
  l.head.map Node2.val

/-- Writing `x` through the reference returned by `List::peek_mut`
(`peek_mut().map(|val| *val = x)` as in the repository's test): the head
node's value is replaced in place, everything else untouched. -/
def List2.peekMutWrite (l : List2 α) (x : α) : List2 α :=
  match l.head with
  | none => ⟨none⟩
  | some (Node2.mk _ next) => ⟨some (Node2.mk x next)⟩

/-- `pub struct IntoIter<T>(List<T>)` of second.rs. -/
structure IntoIter2 (α : Type) where
  inner : List2 α

/-- `List::into_iter` of second.rs. -/
def List2.intoIter (l : List2 α) : IntoIter2 α := ⟨l⟩

/-- `Iterator::next` for `IntoIter`: `self.0.pop()`. -/
def intoIterNext (it : IntoIter2 α) : Option α × IntoIter2 α :=
  let r := it.inner.pop
  (r.1, ⟨r.2⟩)

/-- `struct Iter<'a, T> { next: Option<&'a Node<T>> }` of second.rs. -/
structure Iter2 (α : Type) where
  next : Link2 α

/-- `List::iter` of second.rs: `Iter { next: self.head.as_deref() }`.  The
receiver is only read through a shared borrow, so the list itself is not
returned changed. -/
def List2.iter (l : List2 α) : Iter2 α := ⟨l.head⟩

/-- `Iterator::next` for `Iter`: `self.next.map(|node| { self.next = node.next.as_deref(); &node.val })`.
When `self.next` is `None`, `map` does nothing and the state is untouched. -/
def iterNext (it : Iter2 α) : Option α × Iter2 α :=
  match it.next with
  | none => (none, it)
  | some n => (some n.val, ⟨n.next⟩)

/-- `struct IterMut<'a, T> { next: Option<&'a mut Node<T>> }` of second.rs. -/
structure IterMut2 (α : Type) where
  next : Link2 α

/-- `List::iter_mut` of second.rs. -/
def List2.iterMut (l : List2 α) : IterMut2 α := ⟨l.head⟩

/-- `Iterator::next` for `IterMut`: `self.next.take().map(|node| { self.next = node.next.as_deref_mut(); &mut node.val })`.
On `None` the `take` leaves `None` behind. -/
def iterMutNext (it : IterMut2 α) : Option α × IterMut2 α :=
  match it.next with
  | none => (none, ⟨none⟩)
  | some n => (some n.val, ⟨n.next⟩)

/-- Repeatedly calling `Iter::next` until exhaustion, collecting the yielded
values (the `for` loop of the repository's `iter_test`). -/
def iterCollect : Iter2 α → List α
  | ⟨none⟩ => []
  | ⟨some (Node2.mk v nx)⟩ => v :: iterCollect ⟨nx⟩

/-- Repeatedly calling `IntoIter::next` until exhaustion: the yielded values
together with the iterator state left behind. -/
def intoIterDrain : IntoIter2 α → List α × IntoIter2 α
  | ⟨⟨none⟩⟩ => ([], ⟨⟨none⟩⟩)
  | ⟨⟨some (Node2.mk v nx)⟩⟩ =>
    let r := intoIterDrain ⟨⟨nx⟩⟩
    (v :: r.1, r.2)

/-- One step of `iterCollect` agrees with `iterNext`: the collector really is
the loop that keeps calling `next`. -/
theorem iterCollect_step (it : Iter2 α) :
    iterCollect it =
      match iterNext it with
      | (none, _) => []
      | (some v, it') => v :: iterCollect it' := by
  obtain ⟨nx⟩ := it
  cases nx with
  | none => simp [iterCollect, iterNext]
  | some n => cases n; simp [iterCollect, iterNext, Node2.val, Node2.next]

/-- One step of `intoIterDrain` agrees with `intoIterNext`. -/
theorem intoIterDrain_step (it : IntoIter2 α) :
    intoIterDrain it =
      match intoIterNext it with
      | (none, itF) => ([], itF)
      | (some v, it') => let r := intoIterDrain it'; (v :: r.1, r.2) := by
  obtain ⟨⟨nx⟩⟩ := it
  cases nx with
  | none => simp [intoIterDrain, intoIterNext, List2.pop]
  | some n => cases n; simp [intoIterDrain, intoIterNext, List2.pop]

/-! ## third.rs — PersistentList

`type Link<T> = Option<Rc<Node<T>>>`, `struct Node<T> { val: T, next: Link<T> }`,
`struct List<T> { head: Link<T> }`.  `Rc` sharing of immutable nodes collapses
to plain values; methods that take `&mut self` but never write through it
(`prepend` and `tail` only `clone()` out of `self.head`) are translated as
returning `(result, receiver after the call)` so that the frame property is
recorded rather than assumed. -/

inductive Node3 (α : Type) : Type where
  | mk : α → Option (Node3 α) → Node3 α

def Node3.val {α : Type} : Node3 α → α
  | Node3.mk v _ => v

def Node3.next {α : Type} : Node3 α → Option (Node3 α)
  | Node3.mk _ n => n

/-- `struct List<T> { head: Link<T> }` of third.rs. -/
structure List3 (α : Type) where
  head : Option (Node3 α)

def List3.new : List3 α := ⟨none⟩

/-- `List::prepend` of third.rs: builds a new list whose head node stores the
value and whose `next` is `self.head.clone()` — a shared handle on the
receiver's whole chain.  The second component is the receiver after the call:
the method body contains no write to `self`, so it is returned as it came. -/
def List3.prepend (l : List3 α) (val : α) : List3 α × List3 α :=
  (⟨some (Node3.mk val l.head)⟩, l)

/-- `List::tail` of third.rs: `self.head.as_ref().and_then(|node| node.next.clone())`.
Again paired with the unchanged receiver. -/
def List3.tail (l : List3 α) : List3 α × List3 α :=
  (⟨l.head.bind Node3.next⟩, l)

/-- `List::head` of third.rs: value behind the returned `Option<&T>`. -/
def List3.headVal (l : List3 α) : Option α :=
  l.head.map Node3.val

/-- Values stored along a third.rs chain, head first. -/
def list3Vals : Option (Node3 α) → List α
  | none => []
  | some (Node3.mk v nx) => v :: list3Vals nx

/-! ## Claim theorems for first.rs, second.rs, third.rs -/

/-- Claim C5: for every sequence of N pushes followed by N pops on the
ExclusiveStack (first.rs), the pops return the pushed values in exactly the
reverse of the push order (LIFO); and `pop` on the empty stack returns `None`
and leaves the stack unchanged (hence returns `None` on every repetition). -/
theorem claim_C5_stack_lifo :
    (∀ vs : List Int,
        popN1 (pushAll1 List1.new vs) vs.length = (vs.reverse.map some, List1.new)) ∧
    List1.pop List1.new = (none, List1.new) := by
  refine ⟨fun vs => ?_, rfl⟩
  have h1 := linkToList1_pushAll vs List1.new
  have h2 := popN1_drains_link (pushAll1 List1.new vs).head
  rw [show linkToList1 (List1.new).head = [] from rfl, List.append_nil] at h1
  rw [h1] at h2
  simpa using h2

/-- Claim C6: for an IterableStack (second.rs) built by pushing `a`, `b`, `c`,
`d` in that order: shared-reference iteration yields `d, c, b, a` in that
order (the list itself is only read, never consumed — `iter` takes `&self`,
so in the embedding the list value is untouched and still peeks `d`);
consuming iteration yields the owned values `d, c, b, a` and leaves the
drained iterator holding the empty list; and a write through the mutable
access path to the head value (`peek_mut`) is observed by a subsequent
`peek`. -/
theorem claim_C6_iterators (α : Type) (a b c d e : α) :
    (iterCollect ((((List2.new.push a).push b).push c).push d).iter = [d, c, b, a]) ∧
    ((((List2.new.push a).push b).push c).push d).peek = some d ∧
    (intoIterDrain ((((List2.new.push a).push b).push c).push d).intoIter
      = ([d, c, b, a], ⟨List2.new⟩)) ∧
    (((((List2.new.push a).push b).push c).push d).peekMutWrite e).peek = some e := by
  refine ⟨?_, rfl, ?_, rfl⟩
  · simp [List2.new, List2.push, List2.iter, iterCollect, Node2.val, Node2.next]
  · simp [List2.new, List2.push, List2.intoIter, intoIterDrain]

/-- Claim C10: every IterableStack iterator is fused — for the consuming,
shared-reference and mutable-reference iterators alike, once `next` has
returned `None` the iterator state is unchanged and every further `next`
returns `None` again. -/
theorem claim_C10_iterators_fused (α : Type) :
    (∀ it : IntoIter2 α, (intoIterNext it).1 = none →
        (intoIterNext it).2 = it ∧ intoIterNext ((intoIterNext it).2) = (none, it)) ∧
    (∀ it : Iter2 α, (iterNext it).1 = none →
        (iterNext it).2 = it ∧ iterNext ((iterNext it).2) = (none, it)) ∧
    (∀ it : IterMut2 α, (iterMutNext it).1 = none →
        (iterMutNext it).2 = it ∧ iterMutNext ((iterMutNext it).2) = (none, it)) := by
  refine ⟨fun it h => ?_, fun it h => ?_, fun it h => ?_⟩
  · obtain ⟨⟨nx⟩⟩ := it
    cases nx with
    | none => exact ⟨rfl, rfl⟩
    | some n => cases n; simp [intoIterNext, List2.pop] at h
  · obtain ⟨nx⟩ := it
    cases nx with
    | none => exact ⟨rfl, rfl⟩
    | some n => cases n; simp [iterNext] at h
  · obtain ⟨nx⟩ := it
    cases nx with
    | none => exact ⟨rfl, rfl⟩
    | some n => cases n; simp [iterMutNext] at h

/-- Witness for C10 at a concrete input: the exhausted `Int` iterators. -/
theorem claim_C10_witness :
    (intoIterNext (⟨⟨none⟩⟩ : IntoIter2 Int)).1 = none ∧
    (intoIterNext (⟨⟨none⟩⟩ : IntoIter2 Int)).2 = ⟨⟨none⟩⟩ ∧
    intoIterNext ((intoIterNext (⟨⟨none⟩⟩ : IntoIter2 Int)).2) = (none, ⟨⟨none⟩⟩) ∧
    (iterNext (⟨none⟩ : Iter2 Int)).2 = ⟨none⟩ ∧
    (iterMutNext (⟨none⟩ : IterMut2 Int)).2 = ⟨none⟩ := by
  have h1 := (claim_C10_iterators_fused Int).1 ⟨⟨none⟩⟩ rfl
  have h2 := (claim_C10_iterators_fused Int).2.1 ⟨none⟩ rfl
  have h3 := (claim_C10_iterators_fused Int).2.2 ⟨none⟩ rfl
  exact ⟨rfl, h1.1, h1.2, h2.1, h3.1⟩

/-- Claim C8: for every PersistentList `L` (third.rs) and value `v`,
`prepend(v)` returns a new list whose head is `v` and whose remainder is
exactly `L` (the very same chain, shared), the receiver is returned unchanged
by the call, the value sequence of the new list is `v` followed by `L`'s
values, and a later `prepend` onto a suffix list derived from `L` likewise
leaves its receiver unchanged. -/
theorem claim_C8_prepend_shares_and_frames (α : Type) (l : List3 α) (v w : α) :
    ((l.prepend v).1.headVal = some v) ∧
    (((l.prepend v).1.tail).1 = l) ∧
    ((l.prepend v).2 = l) ∧
    (list3Vals (l.prepend v).1.head = v :: list3Vals l.head) ∧
    ((((l.tail).1.prepend w).2 = (l.tail).1)) := by
  refine ⟨rfl, rfl, rfl, ?_, rfl⟩
  cases hl : l.head with
  | none => simp [List3.prepend, list3Vals, hl]
  | some n => cases n; simp [List3.prepend, list3Vals, hl]

/-- Claim C9: `tail()` of the empty PersistentList (third.rs) is again the
empty list (and the receiver is unchanged), so `tail` is idempotent on the
empty list; and `head()` returns `None` exactly when the list is empty. -/
theorem claim_C9_tail_of_empty :
    ((List3.new : List3 Int).tail = (List3.new, List3.new)) ∧
    ((((List3.new : List3 Int).tail).1.tail).1 = List3.new) ∧
    (∀ (α : Type) (l : List3 α), l.headVal = none ↔ l = List3.new) := by
  refine ⟨rfl, rfl, fun α l => ?_⟩
  obtain ⟨hd⟩ := l
  cases hd with
  | none => simp [List3.headVal, List3.new]
  | some n => simp [List3.headVal, List3.new, Node3.val]

/-- Witness for C9's equivalence at a concrete input: the empty and a
one-element `Int` list. -/
theorem claim_C9_witness :
    ((List3.new : List3 Int).headVal = none) ∧
    ((((List3.new : List3 Int).prepend 7).1.headVal = none) ↔ False) := by
  constructor
  · exact (claim_C9_tail_of_empty.2.2 Int List3.new).mpr rfl
  · simp only [iff_false]
    intro h
    have := (claim_C9_tail_of_empty.2.2 Int ((List3.new : List3 Int).prepend 7).1).mp h
    simpa [List3.prepend, List3.new] using congrArg List3.head this

/-! ## Heap primitives for the pointer-based variants (fourth.rs, fifth.rs)

Heap-allocated nodes are stored in an association list from addresses (`Nat`)
to node records.  `freshAddr` is a deterministic allocator returning an
address distinct from every live one. -/

/-- Look up the node stored at address `a`. -/
def hlookup {β : Type} : List (Nat × β) → Nat → Option β
  | [], _ => none
  | (k, v) :: t, a => if k = a then some v else hlookup t a

/-- Update the node stored at address `a` in place. -/
def hupdate {β : Type} (h : List (Nat × β)) (a : Nat) (f : β → β) : List (Nat × β) :=
  h.map fun p => if p.1 = a then (p.1, f p.2) else p

/-- Free the allocation at address `a` (remove its first occurrence). -/
def herase {β : Type} : List (Nat × β) → Nat → List (Nat × β)
  | [], _ => []
  | (k, v) :: t, a => if k = a then t else (k, v) :: herase t a

/-- Deterministic allocator: one more than the largest live address. -/
def freshAddr {β : Type} (h : List (Nat × β)) : Nat :=
  (h.map Prod.fst).foldr (fun a m => max a m) 0 + 1

theorem mem_le_foldr_max (l : List Nat) : ∀ a ∈ l, a ≤ l.foldr (fun a m => max a m) 0 := by
  induction l with
  | nil => intro a ha; cases ha
  | cons x t ih =>
    intro a ha
    rcases List.mem_cons.mp ha with h | h
    · simp [h, List.foldr_cons, le_max_iff]
    · exact le_trans (ih a h) (by simp [List.foldr_cons, le_max_iff])

theorem freshAddr_not_mem {β : Type} (h : List (Nat × β)) :
    freshAddr h ∉ h.map Prod.fst := by
  intro hmem
  have := mem_le_foldr_max (h.map Prod.fst) _ hmem
  simp only [freshAddr] at this
  omega

theorem hlookup_cons_self {β : Type} (k : Nat) (v : β) (t : List (Nat × β)) :
    hlookup ((k, v) :: t) k = some v := by
  simp [hlookup]

theorem hlookup_not_mem {β : Type} (h : List (Nat × β)) (a : Nat)
    (ha : a ∉ h.map Prod.fst) : hlookup h a = none := by
  induction h with
  | nil => rfl
  | cons p t ih =>
    obtain ⟨k, v⟩ := p
    simp only [List.map_cons, List.mem_cons] at ha
    push_neg at ha
    have hka : k ≠ a := fun h => ha.1 h.symm
    simp only [hlookup, if_neg hka]
    exact ih ha.2

theorem hlookup_append_left {β : Type} (h₁ h₂ : List (Nat × β)) (a : Nat) (v : β)
    (hv : hlookup h₁ a = some v) : hlookup (h₁ ++ h₂) a = some v := by
  induction h₁ with
  | nil => simp [hlookup] at hv
  | cons p t ih =>
    obtain ⟨k, w⟩ := p
    by_cases hk : k = a
    · simp [hlookup, hk] at hv ⊢; exact hv
    · simp only [hlookup, if_neg hk, List.cons_append] at hv ⊢
      exact ih hv

theorem hlookup_append_right {β : Type} (h₁ h₂ : List (Nat × β)) (a : Nat)
    (ha : a ∉ h₁.map Prod.fst) : hlookup (h₁ ++ h₂) a = hlookup h₂ a := by
  induction h₁ with
  | nil => rfl
  | cons p t ih =>
    obtain ⟨k, v⟩ := p
    simp only [List.map_cons, List.mem_cons] at ha
    push_neg at ha
    have hka : k ≠ a := fun h => ha.1 h.symm
    simp only [List.cons_append, hlookup, if_neg hka]
    exact ih ha.2

theorem hupdate_keys {β : Type} (h : List (Nat × β)) (a : Nat) (f : β → β) :
    (hupdate h a f).map Prod.fst = h.map Prod.fst := by
  induction h with
  | nil => rfl
  | cons p t ih =>
    obtain ⟨k, v⟩ := p
    by_cases hk : k = a <;> simp [hupdate, hk] at ih ⊢ <;> exact ih

theorem hupdate_not_mem {β : Type} (h : List (Nat × β)) (a : Nat) (f : β → β)
    (ha : a ∉ h.map Prod.fst) : hupdate h a f = h := by
  induction h with
  | nil => rfl
  | cons p t ih =>
    obtain ⟨k, v⟩ := p
    simp only [List.map_cons, List.mem_cons] at ha
    push_neg at ha
    have hka : k ≠ a := fun h => ha.1 h.symm
    simp only [hupdate, List.map_cons, if_neg hka] at ih ⊢
    exact congrArg _ (ih ha.2)

theorem hupdate_append {β : Type} (h₁ h₂ : List (Nat × β)) (a : Nat) (f : β → β) :
    hupdate (h₁ ++ h₂) a f = hupdate h₁ a f ++ hupdate h₂ a f := by
  simp [hupdate]

theorem herase_cons_self {β : Type} (k : Nat) (v : β) (t : List (Nat × β)) :
    herase ((k, v) :: t) k = t := by
  simp [herase]

/-! ## fifth.rs — ExclusiveQueue

`struct Node<T> { val: T, next: Link<T> }` with `type Link<T> = Option<Box<Node<T>>>`,
and `pub struct List<T> { head: Link<T>, tail: *mut Node<T> }`.  Boxes live on
the explicit heap; `head` and the owning `next` links hold addresses, and the
raw `tail` pointer is an `Option Nat` (`none` = null).  Writing through the
raw tail pointer is undefined behaviour when it does not point at a live
allocation, which the model signals by returning `none`. -/

structure Node5 (α : Type) where
  val : α
  next : Option Nat

structure List5 (α : Type) where
  heap : List (Nat × Node5 α)
  head : Option Nat
  tail : Option Nat

/-- `List::new` of fifth.rs: `head: None, tail: ptr::null_mut()`. -/
def List5.new {α : Type} : List5 α := ⟨[], none, none⟩

/-- `List::push` of fifth.rs: allocate the new boxed node; if the raw tail
pointer is non-null, write `(*self.tail).next = Some(new_tail)` (undefined
behaviour — model result `none` — if the pointer does not address a live
allocation; on all reachable states the overwritten slot is `None`, so the
overwrite drops nothing); otherwise set `self.head`; finally retarget
`self.tail` at the new node. -/
def List5.push (s : List5 α) (val : α) : Option (List5 α) :=
  let f := freshAddr s.heap
  let h1 := s.heap ++ [(f, ⟨val, none⟩)]
  match s.tail with
  | some t =>
    match hlookup h1 t with
    | some _ => some ⟨hupdate h1 t (fun n => ⟨n.val, some f⟩), s.head, some f⟩
    | none => none
  | none => some ⟨h1, some f, some f⟩

/-- `List::pop` of fifth.rs: `self.head.take().map(|head| { let head = *head; … })` —
the box behind `head` is moved out (freed), the head becomes `head.next`, and
if that is `None` the raw tail pointer is nulled.  A `head` address without a
live allocation cannot occur (the box is owned); the model returns `none` on
that impossibility. -/
def List5.pop (s : List5 α) : Option (Option α × List5 α) :=
  match s.head with
  | none => some (none, s)
  | some a =>
    match hlookup s.heap a with
    | none => none
    | some node =>
      some (some node.val,
        ⟨herase s.heap a, node.next, if node.next = none then none else s.tail⟩)

/-- Values stored in the queue, front first (the heap list is kept in chain
order by `push`/`pop`, which the well-formedness invariant below makes
precise). -/
def List5.vals (s : List5 α) : List α :=
  s.heap.map fun p => p.2.val

/-- Chain predicate for the queue heap: each node's `next` holds the address
of the next entry, and the final node's `next` is `e`. -/
def qlinked : List (Nat × Node5 α) → Option Nat → Bool
  | [], _ => true
  | (_, n) :: t, e =>
    (match t with
     | [] => decide (n.next = e)
     | (b, _) :: _ => decide (n.next = some b)) && qlinked t e

/-- Well-formedness of a fifth.rs queue state: the heap is a single chain in
list order, addresses are distinct, `head` is the first address and the raw
`tail` pointer is the last. -/
structure QWF (s : List5 α) : Prop where
  chain : qlinked s.heap none = true
  nodup : (s.heap.map Prod.fst).Nodup
  headOk : s.head = (s.heap.map Prod.fst).head?
  tailOk : s.tail = (s.heap.map Prod.fst).getLast?

theorem qwf_new : QWF (List5.new : List5 α) :=
  ⟨rfl, List.nodup_nil, rfl, rfl⟩

theorem qwf_empty_eq_new (s : List5 α) (hwf : QWF s) (hh : s.heap = []) :
    s = List5.new := by
  obtain ⟨heap, head, tail⟩ := s
  subst hh
  have h1 := hwf.headOk
  have h2 := hwf.tailOk
  simp at h1 h2
  simp [List5.new, h1, h2]

theorem hlookup_mem {β : Type} (h : List (Nat × β)) (a : Nat)
    (ha : a ∈ h.map Prod.fst) : ∃ v, hlookup h a = some v := by
  induction h with
  | nil => cases ha
  | cons p t ih =>
    obtain ⟨k, v⟩ := p
    by_cases hk : k = a
    · exact ⟨v, by simp [hlookup, hk]⟩
    · simp only [List.map_cons, List.mem_cons] at ha
      rcases ha with h1 | h1
      · exact absurd h1.symm hk
      · obtain ⟨w, hw⟩ := ih h1
        exact ⟨w, by simp [hlookup, hk, hw]⟩

theorem qlinked_singleton (k : Nat) (n : Node5 α) (e : Option Nat) :
    qlinked [(k, n)] e = decide (n.next = e) := by
  simp [qlinked]

theorem qlinked_cons_cons (k b : Nat) (n m : Node5 α) (t : List (Nat × Node5 α))
    (e : Option Nat) :
    qlinked ((k, n) :: (b, m) :: t) e
      = (decide (n.next = some b) && qlinked ((b, m) :: t) e) := by
  simp [qlinked]

theorem hupdate_cons_eq {β : Type} (k : Nat) (v : β) (t : List (Nat × β)) (f : β → β) :
    hupdate ((k, v) :: t) k f = (k, f v) :: hupdate t k f := by
  simp [hupdate]

theorem hupdate_cons_ne {β : Type} (k a : Nat) (v : β) (t : List (Nat × β)) (f : β → β)
    (hk : k ≠ a) : hupdate ((k, v) :: t) a f = (k, v) :: hupdate t a f := by
  simp [hupdate, hk]

/-- Appending a freshly allocated tail box and retargeting the old last
node's `next` at it preserves the chain shape. -/
theorem qlinked_snoc (v : α) (f : Nat) :
    ∀ (h : List (Nat × Node5 α)) (t : Nat),
      qlinked h none = true → (h.map Prod.fst).Nodup →
      (h.map Prod.fst).getLast? = some t → f ∉ h.map Prod.fst →
      qlinked (hupdate h t (fun n => ⟨n.val, some f⟩) ++ [(f, (⟨v, none⟩ : Node5 α))]) none = true := by
  intro h
  induction h with
  | nil => intro t _ _ hlast _; simp at hlast
  | cons p h' ih =>
    intro t hchain hnodup hlast hf
    obtain ⟨k, n⟩ := p
    cases h' with
    | nil =>
      have hkt : k = t := by simpa using hlast
      subst hkt
      rw [hupdate_cons_eq]
      simp only [hupdate, List.map_nil, List.nil_append, List.cons_append, List.nil_append]
      rw [qlinked_cons_cons, qlinked_singleton]
      simp
    | cons q h'' =>
      obtain ⟨b, m⟩ := q
      have hlast' : (((b, m) :: h'').map Prod.fst).getLast? = some t := by
        have h0 := hlast
        simp only [List.map_cons] at h0 ⊢
        rwa [List.getLast?_cons_cons] at h0
      have ht_mem : t ∈ ((b, m) :: h'').map Prod.fst :=
        List.mem_of_mem_getLast? hlast'
      have hk_notmem : k ∉ ((b, m) :: h'').map Prod.fst := by
        have h0 := hnodup
        simp only [List.map_cons, List.nodup_cons] at h0
        simpa using h0.1
      have hkt : k ≠ t := fun hk => hk_notmem (hk ▸ ht_mem)
      rw [qlinked_cons_cons, Bool.and_eq_true, decide_eq_true_eq] at hchain
      have hnext := hchain.1
      have hrest := hchain.2
      have hnodup' : (((b, m) :: h'').map Prod.fst).Nodup := by
        have h0 := hnodup
        simp only [List.map_cons, List.nodup_cons] at h0 ⊢
        exact h0.2
      have hf' : f ∉ ((b, m) :: h'').map Prod.fst := by
        intro hmem
        refine hf ?_
        simp only [List.map_cons, List.mem_cons] at hmem ⊢
        right; exact hmem
      have hIH := ih t hrest hnodup' hlast' hf'
      rw [hupdate_cons_ne _ _ _ _ _ hkt, List.cons_append]
      rcases hb : hupdate ((b, m) :: h'') t (fun n => ⟨n.val, some f⟩)
          with _ | ⟨⟨b', m'⟩, rest⟩
      · exact absurd hb (by simp [hupdate])
      · have hb' : b' = b := by
          have h1 := congrArg (fun l => l.map Prod.fst) hb
          simp only [hupdate_keys, List.map_cons] at h1
          injection h1 with hh _
          exact hh.symm
        subst hb'
        rw [hb] at hIH
        rw [List.cons_append] at hIH ⊢
        rw [qlinked_cons_cons, Bool.and_eq_true, decide_eq_true_eq]
        exact ⟨hnext, hIH⟩

/-- Retargeting a `next` pointer leaves the stored values untouched. -/
theorem qvals_hupdate (h : List (Nat × Node5 α)) (a : Nat) (nx : Option Nat) :
    (hupdate h a (fun n => ⟨n.val, nx⟩)).map (fun p => p.2.val)
      = h.map fun p => p.2.val := by
  induction h with
  | nil => rfl
  | cons p t ih =>
    obtain ⟨k, n⟩ := p
    by_cases hk : k = a <;> simp [hupdate, hk] at ih ⊢ <;> exact ih

/-- `List::push` (fifth.rs) from a well-formed state: the unsafe tail write
hits a live allocation, the chain stays well-formed, and the stored value
sequence gains `val` at the back. -/
theorem qpush_wf (s : List5 α) (v : α) (hwf : QWF s) :
    ∃ s', s.push v = some s' ∧ QWF s' ∧ s'.vals = s.vals ++ [v] := by
  have hf := freshAddr_not_mem s.heap
  cases htail : s.tail with
  | none =>
    have hkeys : (s.heap.map Prod.fst).getLast? = none := by
      have h0 := hwf.tailOk
      rw [htail] at h0
      exact h0.symm
    have hheap : s.heap = [] := by
      have := List.getLast?_eq_none_iff.mp hkeys
      exact List.map_eq_nil_iff.mp this
    refine ⟨⟨s.heap ++ [(freshAddr s.heap, ⟨v, none⟩)], some (freshAddr s.heap),
      some (freshAddr s.heap)⟩, ?_, ?_, ?_⟩
    · simp [List5.push, htail]
    · constructor
      · simp [hheap, qlinked]
      · simp [hheap]
      · simp [hheap]
      · simp [hheap]
    · simp [List5.vals, hheap]
  | some t =>
    have hkeys : (s.heap.map Prod.fst).getLast? = some t := by
      have h0 := hwf.tailOk
      rw [htail] at h0
      exact h0.symm
    have htmem : t ∈ s.heap.map Prod.fst := List.mem_of_mem_getLast? hkeys
    obtain ⟨w, hw⟩ := hlookup_mem s.heap t htmem
    have hlook : hlookup (s.heap ++ [(freshAddr s.heap, (⟨v, none⟩ : Node5 α))]) t = some w :=
      hlookup_append_left _ _ _ _ hw
    have htf : t ≠ freshAddr s.heap := fun h => hf (h ▸ htmem)
    have hne : s.heap ≠ [] := by
      intro h; rw [h] at hkeys; simp at hkeys
    refine ⟨⟨hupdate (s.heap ++ [(freshAddr s.heap, ⟨v, none⟩)]) t (fun n => ⟨n.val, some (freshAddr s.heap)⟩),
      s.head, some (freshAddr s.heap)⟩, ?_, ?_, ?_⟩
    · simp only [List5.push, htail, hlook]
    · have hupd : hupdate (s.heap ++ [(freshAddr s.heap, (⟨v, none⟩ : Node5 α))]) t
          (fun n => ⟨n.val, some (freshAddr s.heap)⟩)
          = hupdate s.heap t (fun n => ⟨n.val, some (freshAddr s.heap)⟩)
            ++ [(freshAddr s.heap, ⟨v, none⟩)] := by
        rw [hupdate_append]
        simp [hupdate, if_neg (Ne.symm htf)]
      rw [hupd]
      constructor
      · exact qlinked_snoc v (freshAddr s.heap) s.heap t hwf.chain hwf.nodup hkeys hf
      · rw [List.map_append, hupdate_keys]
        rw [List.nodup_append]
        refine ⟨hwf.nodup, List.nodup_singleton _, ?_⟩
        intro x hx hx'
        simp only [List.map_cons, List.map_nil, List.mem_singleton] at hx'
        exact hf (hx' ▸ hx)
      · rw [List.map_append, hupdate_keys]
        rw [hwf.headOk]
        cases hh : s.heap.map Prod.fst with
        | nil => exact absurd (List.map_eq_nil_iff.mp hh) hne
        | cons x xs => simp
      · rw [List.map_append, hupdate_keys]
        simp
    · simp only [List5.vals]
      rw [qvals_hupdate]
      simp [List5.vals]

/-- `List::pop` (fifth.rs) from a well-formed state: it never hits the
model's impossibility branch, preserves well-formedness, returns `None` and
leaves the state alone exactly on the empty queue, and otherwise removes and
returns the front value — nulling the raw tail pointer in the same call when
the queue drains. -/
theorem qpop_wf (s : List5 α) (hwf : QWF s) :
    ∃ o s', s.pop = some (o, s') ∧ QWF s' ∧
      ((s.heap = [] ∧ o = none ∧ s' = s) ∨
        (∃ v rest, s.vals = v :: rest ∧ o = some v ∧ s'.vals = rest ∧
          s'.heap.length + 1 = s.heap.length)) := by
  cases hh : s.heap with
  | nil =>
    have hhead : s.head = none := by
      have h0 := hwf.headOk; rw [hh] at h0; simpa using h0
    exact ⟨none, s, by simp [List5.pop, hhead], hwf, Or.inl ⟨by simp [hh], rfl, rfl⟩⟩
  | cons p h' =>
    obtain ⟨a, n⟩ := p
    have hhead : s.head = some a := by
      have h0 := hwf.headOk; rw [hh] at h0; simpa using h0
    have hchain : qlinked ((a, n) :: h') none = true := hh ▸ hwf.chain
    refine ⟨some n.val, ⟨h', n.next, if n.next = none then none else s.tail⟩, ?_, ?_, ?_⟩
    · simp [List5.pop, hhead, hh, hlookup_cons_self, herase_cons_self]
    · constructor
      · cases h' with
        | nil => rfl
        | cons q h'' =>
          obtain ⟨b, m⟩ := q
          rw [qlinked_cons_cons, Bool.and_eq_true] at hchain
          exact hchain.2
      · have h0 := hwf.nodup; rw [hh] at h0
        simp only [List.map_cons, List.nodup_cons] at h0
        exact h0.2
      · cases h' with
        | nil =>
          have : n.next = none := by
            rw [show qlinked [(a, n)] none = decide (n.next = none) from qlinked_singleton a n none] at hchain
            simpa using hchain
          simp [this]
        | cons q h'' =>
          obtain ⟨b, m⟩ := q
          rw [qlinked_cons_cons, Bool.and_eq_true, decide_eq_true_eq] at hchain
          simp [hchain.1]
      · cases h' with
        | nil =>
          have : n.next = none := by
            rw [show qlinked [(a, n)] none = decide (n.next = none) from qlinked_singleton a n none] at hchain
            simpa using hchain
          simp [this]
        | cons q h'' =>
          obtain ⟨b, m⟩ := q
          rw [qlinked_cons_cons, Bool.and_eq_true, decide_eq_true_eq] at hchain
          have hnx : n.next = some b := hchain.1
          have htl : s.tail = (((b, m) :: h'').map Prod.fst).getLast? := by
            have h0 := hwf.tailOk; rw [hh] at h0
            rw [h0]
            simp only [List.map_cons]
            rw [List.getLast?_cons_cons]
          simp [hnx, htl]
    · right
      exact ⟨n.val, h'.map fun p => p.2.val, by simp [List5.vals, hh], rfl,
        by simp [List5.vals], by simp [hh]⟩

/-- The operation alphabet of fifth.rs. -/
inductive QOp (α : Type) where
  | push : α → QOp α
  | pop : QOp α

/-- Run a sequence of fifth.rs operations from a state, collecting every
`pop` result in order.  `none` signals that an operation hit undefined
behaviour (a write through a dangling tail pointer) or the model's
impossibility branch. -/
def runQ : List5 α → List (QOp α) → Option (List5 α × List (Option α))
  | s, [] => some (s, [])
  | s, QOp.push v :: rest =>
    match s.push v with
    | none => none
    | some s' => runQ s' rest
  | s, QOp.pop :: rest =>
    match s.pop with
    | none => none
    | some (o, s') =>
      match runQ s' rest with
      | none => none
      | some (t, outs) => some (t, o :: outs)

/-- Running from a well-formed queue state never hits undefined behaviour and
ends well-formed. -/
theorem runQ_wf : ∀ (ops : List (QOp α)) (s : List5 α), QWF s →
    ∃ s' outs, runQ s ops = some (s', outs) ∧ QWF s' := by
  intro ops
  induction ops with
  | nil => intro s hwf; exact ⟨s, [], rfl, hwf⟩
  | cons op rest ih =>
    intro s hwf
    cases op with
    | push v =>
      obtain ⟨s', hpush, hwf', _⟩ := qpush_wf s v hwf
      obtain ⟨t, outs, hrun, hwft⟩ := ih s' hwf'
      exact ⟨t, outs, by simp [runQ, hpush, hrun], hwft⟩
    | pop =>
      obtain ⟨o, s', hpop, hwf', _⟩ := qpop_wf s hwf
      obtain ⟨t, outs, hrun, hwft⟩ := ih s' hwf'
      exact ⟨t, o :: outs, by simp [runQ, hpop, hrun], hwft⟩

/-- Pushing a block of values appends them, in order, to the stored values. -/
theorem runQ_pushes : ∀ (vs : List α) (s : List5 α), QWF s →
    ∃ s', runQ s (vs.map QOp.push) = some (s', []) ∧ QWF s' ∧
      s'.vals = s.vals ++ vs := by
  intro vs
  induction vs with
  | nil => intro s hwf; exact ⟨s, rfl, hwf, by simp⟩
  | cons v vs ih =>
    intro s hwf
    obtain ⟨s', hpush, hwf', hvals⟩ := qpush_wf s v hwf
    obtain ⟨t, hrun, hwft, hvalst⟩ := ih s' hwf'
    refine ⟨t, by simp [runQ, hpush, hrun], hwft, ?_⟩
    rw [hvalst, hvals]
    simp

/-- Popping as many times as there are stored values returns exactly those
values in order and lands back on the literal `List::new` state. -/
theorem runQ_drain : ∀ (n : Nat) (s : List5 α), QWF s → s.heap.length = n →
    runQ s (List.replicate n QOp.pop) = some (List5.new, s.vals.map some) := by
  intro n
  induction n with
  | zero =>
    intro s hwf hlen
    have hh : s.heap = [] := List.length_eq_zero.mp hlen
    have hs : s = List5.new := qwf_empty_eq_new s hwf hh
    simp [hs, runQ, List5.new, List5.vals]
  | succ n ih =>
    intro s hwf hlen
    obtain ⟨o, s', hpop, hwf', hcase⟩ := qpop_wf s hwf
    rcases hcase with ⟨hh, _, _⟩ | ⟨v, rest, hvals, ho, hvals', hlen'⟩
    · rw [hh] at hlen; simp at hlen
    · have hlens' : s'.heap.length = n := by omega
      have hrun := ih s' hwf' hlens'
      rw [List.replicate_succ]
      simp only [runQ, hpop, hrun]
      rw [hvals, ho, hvals']
      simp

/-- `runQ` splits over concatenated programs. -/
theorem runQ_append : ∀ (l₁ l₂ : List (QOp α)) (s : List5 α),
    runQ s (l₁ ++ l₂) =
      match runQ s l₁ with
      | none => none
      | some (s', o₁) =>
        match runQ s' l₂ with
        | none => none
        | some (t, o₂) => some (t, o₁ ++ o₂) := by
  intro l₁
  induction l₁ with
  | nil =>
    intro l₂ s
    simp only [List.nil_append, runQ]
    cases runQ s l₂ with
    | none => rfl
    | some r => cases r; rfl
  | cons op rest ih =>
    intro l₂ s
    cases op with
    | push v =>
      rw [List.cons_append]
      simp only [runQ]
      cases s.push v with
      | none => rfl
      | some s' => exact ih l₂ s'
    | pop =>
      rw [List.cons_append]
      cases hp : s.pop with
      | none => simp [runQ, hp]
      | some r =>
        obtain ⟨o, s'⟩ := r
        simp only [runQ, hp]
        rw [ih l₂ s']
        cases hr : runQ s' rest with
        | none => rfl
        | some r2 =>
          obtain ⟨t, outs⟩ := r2
          dsimp only
          cases runQ t l₂ with
          | none => rfl
          | some r3 => cases r3; rfl

/-- Claim C2: for every sequence of push and pop operations on the
ExclusiveQueue (fifth.rs), the retained raw tail pointer of the resulting
state is non-null exactly when the queue is non-empty (`head` non-`None`),
and whenever it is non-null it addresses a live allocation — it is never
left dangling across a push/pop boundary (the pop that removes the last
element nulls it within that same operation, which is what makes this
invariant hold after every prefix). -/
theorem claim_C2_tail_valid_iff_nonempty (α : Type) (ops : List (QOp α))
    (s : List5 α) (outs : List (Option α))
    (h : runQ List5.new ops = some (s, outs)) :
    (s.tail = none ↔ s.head = none) ∧
    (∀ t, s.tail = some t → t ∈ s.heap.map Prod.fst) := by
  obtain ⟨s₀, outs₀, hrun, hwf⟩ := runQ_wf ops List5.new qwf_new
  rw [h] at hrun
  injection hrun with h1
  injection h1 with hs ho
  subst hs
  constructor
  · rw [hwf.tailOk, hwf.headOk]
    constructor
    · intro hgl
      have : s.heap.map Prod.fst = [] := List.getLast?_eq_none_iff.mp hgl
      simp [this]
    · intro hhd
      have : s.heap.map Prod.fst = [] := List.head?_eq_none_iff.mp hhd
      simp [this]
  · intro t ht
    rw [hwf.tailOk] at ht
    exact List.mem_of_mem_getLast? ht

/-- Witness for C2 at a concrete input: one push of `1` from the empty
queue. -/
theorem claim_C2_witness :
    runQ (List5.new : List5 Int) [QOp.push 1]
        = some (⟨[(1, ⟨1, none⟩)], some 1, some 1⟩, []) ∧
    ((⟨[(1, ⟨1, none⟩)], some 1, some 1⟩ : List5 Int).tail = none ↔
      (⟨[(1, ⟨1, none⟩)], some 1, some 1⟩ : List5 Int).head = none) ∧
    (1 : Nat) ∈ ((⟨[(1, ⟨1, none⟩)], some 1, some 1⟩ : List5 Int).heap.map Prod.fst) := by
  refine ⟨rfl, ?_, ?_⟩
  · exact (claim_C2_tail_valid_iff_nonempty Int [QOp.push 1] _ [] rfl).1
  · exact (claim_C2_tail_valid_iff_nonempty Int [QOp.push 1] _ [] rfl).2 1 rfl

/-- Claim C3: pushing N values and then popping N times on the
ExclusiveQueue (fifth.rs) returns exactly the pushed values in push order
(FIFO) and lands back on the literal freshly-constructed state; moreover any
operation sequence that drains the queue to empty ends in that same
freshly-constructed state, so subsequent operations behave identically to a
fresh queue (no residual stale tail state). -/
theorem claim_C3_queue_fifo :
    (∀ (α : Type) (vs : List α),
        runQ List5.new (vs.map QOp.push ++ List.replicate vs.length QOp.pop)
          = some (List5.new, vs.map some)) ∧
    (∀ (α : Type) (ops : List (QOp α)) (s : List5 α) (outs : List (Option α)),
        runQ List5.new ops = some (s, outs) → s.head = none → s = List5.new) := by
  constructor
  · intro α vs
    obtain ⟨s', hrun, hwf', hvals⟩ := runQ_pushes vs List5.new qwf_new
    have hvals' : s'.vals = vs := by simpa [List5.vals, List5.new] using hvals
    have hlen : s'.heap.length = vs.length := by
      have h0 := congrArg List.length hvals'
      simpa [List5.vals] using h0
    have hdrain := runQ_drain vs.length s' hwf' hlen
    rw [runQ_append, hrun]
    dsimp only
    rw [hdrain, hvals']
    simp
  · intro α ops s outs h hhead
    obtain ⟨s₀, outs₀, hrun, hwf⟩ := runQ_wf ops List5.new qwf_new
    rw [h] at hrun
    injection hrun with h1
    injection h1 with hs ho
    subst hs
    have hkeys : s.heap.map Prod.fst = [] :=
      List.head?_eq_none_iff.mp (hwf.headOk ▸ hhead)
    exact qwf_empty_eq_new s hwf (List.map_eq_nil_iff.mp hkeys)

/-- Witness for C3 at a concrete input: two pushes then two pops, and a
draining two-op program. -/
theorem claim_C3_witness :
    runQ (List5.new : List5 Int) ([1, 2].map QOp.push ++ List.replicate 2 QOp.pop)
      = some (List5.new, [some 1, some 2]) ∧
    (⟨[], none, none⟩ : List5 Int) = List5.new := by
  constructor
  · exact claim_C3_queue_fifo.1 Int [1, 2]
  · exact claim_C3_queue_fifo.2 Int [QOp.push 1, QOp.pop] ⟨[], none, none⟩ [some 1]
      (by rfl) rfl

/-! ## fourth.rs — SharedDeque

`type Link<T> = Option<Rc<RefCell<Node<T>>>>`, `struct Node<T> { val: T,
next: Link<T>, prev: Link<T> }`, `struct List<T> { head: Link<T>, tail: Link<T> }`.
Nodes live on the explicit heap; every stored `Rc` handle (the list's `head`
and `tail` and every node's `next`/`prev`) is an address.  `Rc::try_unwrap`
on a handle succeeds exactly when its strong count is 1, i.e. when no handle
other than the caller's local one is stored anywhere; `noStoredRef` below is
that success condition.  A failed `try_unwrap` (followed by `.ok().unwrap()`
in the source) is a panic, which the model signals by returning `none`. -/

structure Node4 (α : Type) where
  val : α
  next : Option Nat
  prev : Option Nat

structure List4 (α : Type) where
  heap : List (Nat × Node4 α)
  head : Option Nat
  tail : Option Nat

/-- `List::new` of fourth.rs. -/
def List4.new {α : Type} : List4 α := ⟨[], none, none⟩

/-- Strong-count condition of `Rc::try_unwrap(x)` where `x` is the caller's
local handle on address `a`: no other handle on `a` is stored in the
structure (list head, list tail, or any node's `next`/`prev`). -/
def noStoredRef (s : List4 α) (a : Nat) : Bool :=
  decide (s.head ≠ some a) && decide (s.tail ≠ some a) &&
    s.heap.all fun p => decide (p.2.next ≠ some a) && decide (p.2.prev ≠ some a)

/-- `List::push_front` of fourth.rs: allocate the node (`prev`/`next` start
as `None`); on the empty deque both `head` and `tail` get handles on it;
otherwise the old head's `prev` and the new node's `next` are linked up and
`head` is retargeted.  `borrow_mut` on the old head cannot fail here (no
borrow is outstanding in the operation language). -/
def List4.pushFront (s : List4 α) (v : α) : List4 α :=
  let f := freshAddr s.heap
  match s.head with
  | none => ⟨(f, ⟨v, none, none⟩) :: s.heap, some f, some f⟩
  | some a =>
    ⟨(f, ⟨v, some a, none⟩) :: hupdate s.heap a (fun n => ⟨n.val, n.next, some f⟩),
      some f, s.tail⟩

/-- `List::push_back` of fourth.rs, mirror image of `push_front`. -/
def List4.pushBack (s : List4 α) (v : α) : List4 α :=
  let f := freshAddr s.heap
  match s.tail with
  | none => ⟨s.heap ++ [(f, ⟨v, none, none⟩)], some f, some f⟩
  | some t =>
    ⟨hupdate s.heap t (fun n => ⟨n.val, some f, n.prev⟩) ++ [(f, ⟨v, none, some t⟩)],
      s.head, some f⟩

/-- `List::pop_front` of fourth.rs: take the head handle; take the old
head's `next`; if a successor exists, take its `prev` and retarget `head`,
else take `tail`; then `Rc::try_unwrap(old_head).ok().unwrap().into_inner().val`
— the unwrap panics (`none`) unless no other handle on the node remains
stored, and on success the allocation is freed. -/
def List4.popFront (s : List4 α) : Option (Option α × List4 α) :=
  match s.head with
  | none => some (none, s)
  | some a =>
    match hlookup s.heap a with
    | none => none
    | some nodeA =>
      let h1 := hupdate s.heap a (fun n => ⟨n.val, none, n.prev⟩)
      match nodeA.next with
      | some b =>
        let h2 := hupdate h1 b (fun n => ⟨n.val, n.next, none⟩)
        if noStoredRef ⟨h2, some b, s.tail⟩ a then
          some (some nodeA.val, ⟨herase h2 a, some b, s.tail⟩)
        else none
      | none =>
        if noStoredRef ⟨h1, none, none⟩ a then
          some (some nodeA.val, ⟨herase h1 a, none, none⟩)
        else none

/-- `List::pop_back` of fourth.rs, mirror image of `pop_front`. -/
def List4.popBack (s : List4 α) : Option (Option α × List4 α) :=
  match s.tail with
  | none => some (none, s)
  | some t =>
    match hlookup s.heap t with
    | none => none
    | some nodeT =>
      let h1 := hupdate s.heap t (fun n => ⟨n.val, n.next, none⟩)
      match nodeT.prev with
      | some p =>
        let h2 := hupdate h1 p (fun n => ⟨n.val, none, n.prev⟩)
        if noStoredRef ⟨h2, s.head, some p⟩ t then
          some (some nodeT.val, ⟨herase h2 t, s.head, some p⟩)
        else none
      | none =>
        if noStoredRef ⟨h1, none, none⟩ t then
          some (some nodeT.val, ⟨herase h1 t, none, none⟩)
        else none

/-- Values read front-to-back by following `next` handles from `head`
(`fuel` bounds the walk; the heap size always suffices on well-formed
states). -/
def walkFrontAux (h : List (Nat × Node4 α)) : Option Nat → Nat → Option (List α)
  | none, _ => some []
  | some _, 0 => none
  | some a, fuel + 1 =>
    match hlookup h a with
    | none => none
    | some n =>
      match walkFrontAux h n.next fuel with
      | none => none
      | some vs => some (n.val :: vs)

/-- Front-to-back value sequence of a fourth.rs deque. -/
def List4.frontToBack (s : List4 α) : Option (List α) :=
  walkFrontAux s.heap s.head s.heap.length

/-- Doubly-linked chain predicate: entry-wise, `prev` holds the previous
entry's address (`p` for the first entry), `next` holds the following
entry's address (`e` for the last entry). -/
def dlinked : Option Nat → List (Nat × Node4 α) → Option Nat → Bool
  | _, [], _ => true
  | p, (a, n) :: t, e =>
    decide (n.prev = p) &&
    (match t with
     | [] => decide (n.next = e)
     | (b, _) :: _ => decide (n.next = some b)) &&
    dlinked (some a) t e

/-- Well-formedness of a fourth.rs deque state: the heap is one doubly-linked
chain in list order with distinct addresses, `head` the first address and
`tail` the last. -/
structure DWF (s : List4 α) : Prop where
  chain : dlinked none s.heap none = true
  nodup : (s.heap.map Prod.fst).Nodup
  headOk : s.head = (s.heap.map Prod.fst).head?
  tailOk : s.tail = (s.heap.map Prod.fst).getLast?

theorem dwf_new : DWF (List4.new : List4 α) :=
  ⟨rfl, List.nodup_nil, rfl, rfl⟩

theorem dwf_empty_eq_new (s : List4 α) (hwf : DWF s) (hh : s.heap = []) :
    s = List4.new := by
  obtain ⟨heap, head, tail⟩ := s
  subst hh
  have h1 := hwf.headOk
  have h2 := hwf.tailOk
  simp at h1 h2
  simp [List4.new, h1, h2]

theorem dlinked_nil (p e : Option Nat) : dlinked p ([] : List (Nat × Node4 α)) e = true :=
  rfl

theorem dlinked_singleton (p e : Option Nat) (a : Nat) (n : Node4 α) :
    dlinked p [(a, n)] e = (decide (n.prev = p) && decide (n.next = e)) := by
  simp [dlinked]

theorem dlinked_cons_cons (p e : Option Nat) (a b : Nat) (n m : Node4 α)
    (t : List (Nat × Node4 α)) :
    dlinked p ((a, n) :: (b, m) :: t) e
      = (decide (n.prev = p) && decide (n.next = some b) && dlinked (some a) ((b, m) :: t) e) := by
  simp only [dlinked]

/-- Every link field along a chain is either the entry border (`p`/`e`) or
an address occurring in the chain. -/
theorem dlinked_refs : ∀ (l : List (Nat × Node4 α)) (p e : Option Nat),
    dlinked p l e = true → ∀ q ∈ l,
      (q.2.prev = p ∨ ∃ c ∈ l.map Prod.fst, q.2.prev = some c) ∧
      (q.2.next = e ∨ ∃ c ∈ l.map Prod.fst, q.2.next = some c) := by
  intro l
  induction l with
  | nil => intro p e _ q hq; cases hq
  | cons x t ih =>
    intro p e hchain q hq
    obtain ⟨a, n⟩ := x
    rcases List.mem_cons.mp hq with hq1 | hq1
    · subst hq1
      cases t with
      | nil =>
        rw [dlinked_singleton, Bool.and_eq_true, decide_eq_true_eq, decide_eq_true_eq] at hchain
        exact ⟨Or.inl hchain.1, Or.inl hchain.2⟩
      | cons y r =>
        obtain ⟨b, m⟩ := y
        rw [dlinked_cons_cons, Bool.and_eq_true, Bool.and_eq_true,
          decide_eq_true_eq, decide_eq_true_eq] at hchain
        refine ⟨Or.inl hchain.1.1, Or.inr ⟨b, ?_, hchain.1.2⟩⟩
        simp
    · cases t with
      | nil => cases hq1
      | cons y r =>
        obtain ⟨b, m⟩ := y
        rw [dlinked_cons_cons, Bool.and_eq_true, Bool.and_eq_true] at hchain
        have hrec := ih (some a) e hchain.2 q hq1
        constructor
        · rcases hrec.1 with h | ⟨c, hc, hc'⟩
          · exact Or.inr ⟨a, by simp, h⟩
          · exact Or.inr ⟨c, List.mem_cons_of_mem _ hc, hc'⟩
        · rcases hrec.2 with h | ⟨c, hc, hc'⟩
          · exact Or.inl h
          · exact Or.inr ⟨c, List.mem_cons_of_mem _ hc, hc'⟩

theorem herase_append_not_mem {β : Type} :
    ∀ (l₁ l₂ : List (Nat × β)) (a : Nat), a ∉ l₁.map Prod.fst →
      herase (l₁ ++ l₂) a = l₁ ++ herase l₂ a := by
  intro l₁
  induction l₁ with
  | nil => intro l₂ a _; rfl
  | cons p t ih =>
    intro l₂ a ha
    obtain ⟨k, v⟩ := p
    simp only [List.map_cons, List.mem_cons] at ha
    push_neg at ha
    have hka : k ≠ a := fun h => ha.1 h.symm
    simp only [List.cons_append, herase, if_neg hka]
    exact congrArg _ (ih l₂ a ha.2)

/-- Retargeting the last entry's `next` from the old chain end `e₁` to `e₂`
turns a chain ending at `e₁` into a chain ending at `e₂`. -/
theorem dlinked_retarget_last (e₂ : Option Nat) :
    ∀ (l : List (Nat × Node4 α)) (p e₁ : Option Nat) (t : Nat),
      dlinked p l e₁ = true → (l.map Prod.fst).Nodup →
      (l.map Prod.fst).getLast? = some t →
      dlinked p (hupdate l t (fun n => ⟨n.val, e₂, n.prev⟩)) e₂ = true := by
  intro l
  induction l with
  | nil => intro p e₁ t _ _ hlast; simp at hlast
  | cons q l' ih =>
    intro p e₁ t hchain hnodup hlast
    obtain ⟨k, n⟩ := q
    cases l' with
    | nil =>
      have hkt : k = t := by simpa using hlast
      subst hkt
      rw [hupdate_cons_eq]
      simp only [hupdate, List.map_nil]
      rw [dlinked_singleton, Bool.and_eq_true, decide_eq_true_eq] at hchain
      rw [dlinked_singleton]
      simp only [Bool.and_eq_true, decide_eq_true_eq]
      exact ⟨hchain.1, trivial⟩
    | cons r l'' =>
      obtain ⟨c, m⟩ := r
      have hlast' : (((c, m) :: l'').map Prod.fst).getLast? = some t := by
        have h0 := hlast
        simp only [List.map_cons] at h0 ⊢
        rwa [List.getLast?_cons_cons] at h0
      have ht_mem : t ∈ ((c, m) :: l'').map Prod.fst :=
        List.mem_of_mem_getLast? hlast'
      have hk_notmem : k ∉ ((c, m) :: l'').map Prod.fst := by
        have h0 := hnodup
        simp only [List.map_cons, List.nodup_cons] at h0
        simpa using h0.1
      have hkt : k ≠ t := fun hk => hk_notmem (hk ▸ ht_mem)
      have hnodup' : (((c, m) :: l'').map Prod.fst).Nodup := by
        have h0 := hnodup
        simp only [List.map_cons, List.nodup_cons] at h0 ⊢
        exact h0.2
      rw [dlinked_cons_cons, Bool.and_eq_true, Bool.and_eq_true,
        decide_eq_true_eq, decide_eq_true_eq] at hchain
      have hIH := ih (some k) e₁ t hchain.2 hnodup' hlast'
      rw [hupdate_cons_ne _ _ _ _ _ hkt]
      rcases hb : hupdate ((c, m) :: l'') t (fun n => ⟨n.val, e₂, n.prev⟩)
          with _ | ⟨⟨c', m'⟩, rest⟩
      · exact absurd hb (by simp [hupdate])
      · have hc' : c' = c := by
          have h1 := congrArg (fun l => l.map Prod.fst) hb
          simp only [hupdate_keys, List.map_cons] at h1
          injection h1 with hh _
          exact hh.symm
        subst hc'
        rw [hb] at hIH
        rw [dlinked_cons_cons, Bool.and_eq_true, Bool.and_eq_true,
          decide_eq_true_eq, decide_eq_true_eq]
        exact ⟨⟨hchain.1.1, hchain.1.2⟩, hIH⟩

/-- Chain shape of a heap list ending in an explicit final entry. -/
theorem dlinked_concat_iff :
    ∀ (l : List (Nat × Node4 α)) (p : Option Nat) (t : Nat) (nT : Node4 α),
      (dlinked p (l ++ [(t, nT)]) none = true) ↔
        (dlinked p l (some t) = true ∧ nT.next = none ∧
          nT.prev = (match l.getLast? with | none => p | some q => some q.1)) := by
  intro l
  induction l with
  | nil =>
    intro p t nT
    simp only [List.nil_append, dlinked_singleton, Bool.and_eq_true,
      decide_eq_true_eq, dlinked_nil, List.getLast?_nil]
    tauto
  | cons q l' ih =>
    intro p t nT
    obtain ⟨k, n⟩ := q
    cases l' with
    | nil =>
      simp only [List.cons_append, List.nil_append]
      rw [dlinked_cons_cons, dlinked_singleton, dlinked_singleton]
      simp only [Bool.and_eq_true, decide_eq_true_eq, List.getLast?_singleton]
      tauto
    | cons r l'' =>
      obtain ⟨c, m⟩ := r
      have hIH := ih (some k) t nT
      simp only [List.cons_append] at hIH ⊢
      rw [dlinked_cons_cons, dlinked_cons_cons]
      simp only [Bool.and_eq_true, decide_eq_true_eq]
      rw [show ((k, n) :: (c, m) :: l'').getLast? = ((c, m) :: l'').getLast? from
        List.getLast?_cons_cons]
      constructor
      · rintro ⟨⟨h1, h2⟩, h3⟩
        obtain ⟨h4, h5, h6⟩ := hIH.mp h3
        exact ⟨⟨⟨h1, h2⟩, h4⟩, h5, h6⟩
      · rintro ⟨⟨⟨h1, h2⟩, h4⟩, h5, h6⟩
        exact ⟨⟨h1, h2⟩, hIH.mpr ⟨h4, h5, h6⟩⟩

/-- `List::push_front` (fourth.rs) preserves well-formedness. -/
theorem dpushFront_wf (s : List4 α) (v : α) (hwf : DWF s) : DWF (s.pushFront v) := by
  have hf := freshAddr_not_mem s.heap
  cases hh : s.heap with
  | nil =>
    have hhead : s.head = none := by
      have h0 := hwf.headOk; rw [hh] at h0; simpa using h0
    constructor <;> simp [List4.pushFront, hhead, hh, dlinked_singleton]
  | cons q h' =>
    obtain ⟨a, nodeA⟩ := q
    have hhead : s.head = some a := by
      have h0 := hwf.headOk; rw [hh] at h0; simpa using h0
    have hchain : dlinked none ((a, nodeA) :: h') none = true := hh ▸ hwf.chain
    have hnodup : ((a, nodeA) :: h').map Prod.fst |>.Nodup := hh ▸ hwf.nodup
    have hanotmem : a ∉ h'.map Prod.fst := by
      simp only [List.map_cons, List.nodup_cons] at hnodup
      simpa using hnodup.1
    have hupd : hupdate s.heap a (fun n => ⟨n.val, n.next, some (freshAddr s.heap)⟩)
        = (a, ⟨nodeA.val, nodeA.next, some (freshAddr s.heap)⟩) :: h' := by
      rw [hh, hupdate_cons_eq, hupdate_not_mem h' a _ hanotmem]
    constructor
    · simp only [List4.pushFront, hhead, hupd]
      rw [dlinked_cons_cons, Bool.and_eq_true, Bool.and_eq_true,
        decide_eq_true_eq, decide_eq_true_eq]
      refine ⟨⟨by simp, by simp⟩, ?_⟩
      cases h' with
      | nil =>
        rw [dlinked_singleton] at hchain ⊢
        simp only [Bool.and_eq_true, decide_eq_true_eq] at hchain ⊢
        exact ⟨by simp, hchain.2⟩
      | cons r h'' =>
        obtain ⟨b, m⟩ := r
        rw [dlinked_cons_cons] at hchain ⊢
        simp only [Bool.and_eq_true, decide_eq_true_eq] at hchain ⊢
        exact ⟨⟨by simp, hchain.1.2⟩, hchain.2⟩
    · have hf' : freshAddr s.heap ∉ ((a, nodeA) :: h').map Prod.fst := by
        rw [← hh]; exact hf
      simp only [List4.pushFront, hhead, hupd, List.map_cons, List.nodup_cons]
      constructor
      · simpa using hf'
      · simpa using hnodup
    · simp [List4.pushFront, hhead, hupd]
    · simp only [List4.pushFront, hhead, hupd, List.map_cons]
      have h0 := hwf.tailOk
      rw [hh] at h0
      rw [h0]
      simp only [List.map_cons]
      rw [List.getLast?_cons_cons]

/-- `List::push_back` (fourth.rs) preserves well-formedness. -/
theorem dpushBack_wf (s : List4 α) (v : α) (hwf : DWF s) : DWF (s.pushBack v) := by
  have hf := freshAddr_not_mem s.heap
  cases htail : s.tail with
  | none =>
    have hkeys : (s.heap.map Prod.fst).getLast? = none := by
      have h0 := hwf.tailOk; rw [htail] at h0; exact h0.symm
    have hheap : s.heap = [] :=
      List.map_eq_nil_iff.mp (List.getLast?_eq_none_iff.mp hkeys)
    constructor <;> simp [List4.pushBack, htail, hheap, dlinked_singleton]
  | some t =>
    have hkeys : (s.heap.map Prod.fst).getLast? = some t := by
      have h0 := hwf.tailOk; rw [htail] at h0; exact h0.symm
    have htmem : t ∈ s.heap.map Prod.fst := List.mem_of_mem_getLast? hkeys
    have htf : t ≠ freshAddr s.heap := fun h => hf (h ▸ htmem)
    have hne : s.heap ≠ [] := by
      intro h; rw [h] at hkeys; simp at hkeys
    have hXchain : dlinked none
        (hupdate s.heap t (fun n => ⟨n.val, some (freshAddr s.heap), n.prev⟩))
        (some (freshAddr s.heap)) = true :=
      dlinked_retarget_last (some (freshAddr s.heap)) s.heap none none t
        hwf.chain hwf.nodup hkeys
    have hXlast : (hupdate s.heap t
        (fun n => ⟨n.val, some (freshAddr s.heap), n.prev⟩)).getLast?.map Prod.fst
          = some t := by
      rw [← List.getLast?_map, hupdate_keys]
      exact hkeys
    constructor
    · simp only [List4.pushBack, htail]
      rw [dlinked_concat_iff]
      refine ⟨hXchain, rfl, ?_⟩
      rcases hX : (hupdate s.heap t
          (fun n => ⟨n.val, some (freshAddr s.heap), n.prev⟩)).getLast? with _ | q
      · rw [hX] at hXlast; simp at hXlast
      · rw [hX] at hXlast
        have h1 : q.1 = t := by simpa using hXlast
        dsimp only
        rw [h1]
    · simp only [List4.pushBack, htail, List.map_append, hupdate_keys]
      rw [List.nodup_append]
      refine ⟨hwf.nodup, List.nodup_singleton _, ?_⟩
      intro x hx hx'
      simp only [List.map_cons, List.map_nil, List.mem_singleton] at hx'
      exact hf (hx' ▸ hx)
    · simp only [List4.pushBack, htail, List.map_append, hupdate_keys]
      rw [hwf.headOk]
      cases hh : s.heap.map Prod.fst with
      | nil => exact absurd (List.map_eq_nil_iff.mp hh) hne
      | cons x xs => simp
    · simp only [List4.pushBack, htail, List.map_append, hupdate_keys]
      rw [show (List.map Prod.fst [(freshAddr s.heap, (⟨v, none, some t⟩ : Node4 α))])
          = [freshAddr s.heap] from rfl]
      rw [List.getLast?_concat]

/-- `List::pop_front` (fourth.rs) from a well-formed state: both links into
the popped node are severed before reclamation, so the `Rc::try_unwrap`
refcount check always passes (the panic branch is unreachable); the result is
well-formed, and exactly one node is freed unless the deque was empty. -/
theorem dpopFront_wf (s : List4 α) (hwf : DWF s) :
    ∃ o s', s.popFront = some (o, s') ∧ DWF s' ∧
      ((s.heap = [] ∧ o = none ∧ s' = s) ∨
        (o.isSome = true ∧ s'.heap.length + 1 = s.heap.length)) := by
  cases hh : s.heap with
  | nil =>
    have hhead : s.head = none := by
      have h0 := hwf.headOk; rw [hh] at h0; simpa using h0
    exact ⟨none, s, by simp [List4.popFront, hhead], hwf, Or.inl ⟨by simp [hh], rfl, rfl⟩⟩
  | cons q h' =>
    obtain ⟨a, nodeA⟩ := q
    have hhead : s.head = some a := by
      have h0 := hwf.headOk; rw [hh] at h0; simpa using h0
    have hchain : dlinked none ((a, nodeA) :: h') none = true := hh ▸ hwf.chain
    have hnodup : (((a, nodeA) :: h').map Prod.fst).Nodup := hh ▸ hwf.nodup
    have hanotmem : a ∉ h'.map Prod.fst := by
      simp only [List.map_cons, List.nodup_cons] at hnodup
      simpa using hnodup.1
    have hlook : hlookup s.heap a = some nodeA := by
      rw [hh]; exact hlookup_cons_self a nodeA h'
    have hupd1 : hupdate s.heap a (fun n => ⟨n.val, none, n.prev⟩)
        = (a, ⟨nodeA.val, none, nodeA.prev⟩) :: h' := by
      rw [hh, hupdate_cons_eq, hupdate_not_mem h' a _ hanotmem]
    cases h' with
    | nil =>
      have hsingle : nodeA.prev = none ∧ nodeA.next = none := by
        rw [dlinked_singleton, Bool.and_eq_true, decide_eq_true_eq,
          decide_eq_true_eq] at hchain
        exact hchain
      refine ⟨some nodeA.val, ⟨[], none, none⟩, ?_, ?_, ?_⟩
      · simp only [List4.popFront, hhead, hlook, hupd1, hsingle.2]
        rw [if_pos (by simp [noStoredRef, hsingle.1])]
        simp [herase_cons_self]
      · exact ⟨rfl, List.nodup_nil, rfl, rfl⟩
      · right
        exact ⟨rfl, by simp [hh]⟩
    | cons r t' =>
      obtain ⟨b, m⟩ := r
      rw [dlinked_cons_cons, Bool.and_eq_true, Bool.and_eq_true,
        decide_eq_true_eq, decide_eq_true_eq] at hchain
      have hprev : nodeA.prev = none := hchain.1.1
      have hnext : nodeA.next = some b := hchain.1.2
      have hrest : dlinked (some a) ((b, m) :: t') none = true := hchain.2
      have habmem : a ∉ ((b, m) :: t').map Prod.fst := hanotmem
      have hab : a ≠ b := by
        intro h; exact habmem (by simp [h])
      have hbnotmem : b ∉ t'.map Prod.fst := by
        simp only [List.map_cons, List.nodup_cons] at hnodup
        have h0 := hnodup.2
        simp only [List.nodup_cons] at h0
        exact h0.1
      have hC : dlinked none ((b, ⟨m.val, m.next, none⟩) :: t') none = true := by
        cases t' with
        | nil =>
          rw [dlinked_singleton] at hrest ⊢
          simp only [Bool.and_eq_true, decide_eq_true_eq] at hrest ⊢
          exact ⟨by simp, hrest.2⟩
        | cons rc t'' =>
          obtain ⟨c, mc⟩ := rc
          rw [dlinked_cons_cons] at hrest ⊢
          simp only [Bool.and_eq_true, decide_eq_true_eq] at hrest ⊢
          exact ⟨⟨by simp, hrest.1.2⟩, hrest.2⟩
      have hupd2 : hupdate ((a, (⟨nodeA.val, none, nodeA.prev⟩ : Node4 α)) :: (b, m) :: t') b
            (fun n => ⟨n.val, n.next, none⟩)
          = (a, ⟨nodeA.val, none, nodeA.prev⟩) :: (b, ⟨m.val, m.next, none⟩) :: t' := by
        rw [hupdate_cons_ne _ _ _ _ _ hab, hupdate_cons_eq,
          hupdate_not_mem t' b _ hbnotmem]
      have htailx : ∃ x, s.tail = some x ∧ x ∈ ((b, m) :: t').map Prod.fst := by
        have h0 := hwf.tailOk
        rw [hh] at h0
        simp only [List.map_cons] at h0
        rw [List.getLast?_cons_cons] at h0
        cases hgl : (b :: t'.map Prod.fst).getLast? with
        | none => simp at hgl
        | some x =>
          refine ⟨x, by rw [h0]; exact hgl, ?_⟩
          simpa using List.mem_of_mem_getLast? hgl
      obtain ⟨x, hx, hxmem⟩ := htailx
      have hxa : x ≠ a := fun h => habmem (h ▸ hxmem)
      have hnsr : noStoredRef
          ⟨(a, (⟨nodeA.val, none, nodeA.prev⟩ : Node4 α)) ::
            (b, (⟨m.val, m.next, none⟩ : Node4 α)) :: t', some b, s.tail⟩ a = true := by
        rw [noStoredRef, Bool.and_eq_true, Bool.and_eq_true]
        refine ⟨⟨by simp [Ne.symm hab], by rw [hx]; simp [hxa]⟩, ?_⟩
        rw [List.all_eq_true]
        intro p hp
        rcases List.mem_cons.mp hp with h1 | h1
        · subst h1
          simp only [Bool.and_eq_true, decide_eq_true_eq]
          exact ⟨by simp, by simp [hprev]⟩
        · have hrefs := dlinked_refs _ none none hC p h1
          have hkeysC : ((b, (⟨m.val, m.next, none⟩ : Node4 α)) :: t').map Prod.fst
              = b :: t'.map Prod.fst := by simp
          simp only [Bool.and_eq_true, decide_eq_true_eq]
          constructor
          · rcases hrefs.2 with h2 | ⟨c, hc, hc'⟩
            · simp [h2]
            · rw [hc']
              simp only [ne_eq, Option.some.injEq]
              intro h3
              subst h3
              rw [hkeysC] at hc
              exact habmem (by simpa using hc)
          · rcases hrefs.1 with h2 | ⟨c, hc, hc'⟩
            · simp [h2]
            · rw [hc']
              simp only [ne_eq, Option.some.injEq]
              intro h3
              subst h3
              rw [hkeysC] at hc
              exact habmem (by simpa using hc)
      refine ⟨some nodeA.val,
        ⟨(b, ⟨m.val, m.next, none⟩) :: t', some b, s.tail⟩, ?_, ?_, ?_⟩
      · simp only [List4.popFront, hhead, hlook, hupd1, hnext, hupd2]
        rw [if_pos hnsr]
        rw [herase_cons_self]
      · constructor
        · exact hC
        · have h0 := hnodup
          simp only [List.map_cons, List.nodup_cons] at h0 ⊢
          exact h0.2
        · simp
        · have h0 := hwf.tailOk
          rw [hh] at h0
          simp only [List.map_cons] at h0 ⊢
          rw [List.getLast?_cons_cons] at h0
          exact h0
      · right
        exact ⟨rfl, by simp [hh]⟩

/-- `List::pop_back` (fourth.rs) from a well-formed state: mirror image of
`dpopFront_wf`, decomposing the chain at its last entry. -/
theorem dpopBack_wf (s : List4 α) (hwf : DWF s) :
    ∃ o s', s.popBack = some (o, s') ∧ DWF s' ∧
      ((s.heap = [] ∧ o = none ∧ s' = s) ∨
        (o.isSome = true ∧ s'.heap.length + 1 = s.heap.length)) := by
  cases htail : s.tail with
  | none =>
    have hkeys : (s.heap.map Prod.fst).getLast? = none := by
      have h0 := hwf.tailOk; rw [htail] at h0; exact h0.symm
    have hheap : s.heap = [] :=
      List.map_eq_nil_iff.mp (List.getLast?_eq_none_iff.mp hkeys)
    exact ⟨none, s, by simp [List4.popBack, htail], hwf, Or.inl ⟨hheap, rfl, rfl⟩⟩
  | some t =>
    have hkeys : (s.heap.map Prod.fst).getLast? = some t := by
      have h0 := hwf.tailOk; rw [htail] at h0; exact h0.symm
    rcases List.eq_nil_or_concat s.heap with hnil | ⟨L, q, hLq⟩
    · rw [hnil] at hkeys; simp at hkeys
    · obtain ⟨t₀, nT⟩ := q
      have hheap : s.heap = L ++ [(t₀, nT)] := by
        rw [hLq, List.concat_eq_append]
      have ht0 : t₀ = t := by
        have h1 : (s.heap.map Prod.fst).getLast? = some t₀ := by
          rw [hheap, List.map_append]
          simp [List.getLast?_concat]
        rw [h1] at hkeys
        injection hkeys
      subst ht0
      have hchain : dlinked none (L ++ [(t₀, nT)]) none = true := hheap ▸ hwf.chain
      have hnodup : ((L ++ [(t₀, nT)]).map Prod.fst).Nodup := hheap ▸ hwf.nodup
      have hnodupL : (L.map Prod.fst).Nodup := by
        rw [List.map_append, List.nodup_append] at hnodup
        exact hnodup.1
      have htnotL : t₀ ∉ L.map Prod.fst := by
        rw [List.map_append, List.nodup_append] at hnodup
        intro hmem
        exact hnodup.2.2 hmem (by simp)
      have hdecomp := (dlinked_concat_iff L none t₀ nT).mp hchain
      have hLchain : dlinked none L (some t₀) = true := hdecomp.1
      have hTnext : nT.next = none := hdecomp.2.1
      have hlookT : hlookup s.heap t₀ = some nT := by
        rw [hheap, hlookup_append_right L _ t₀ htnotL]
        exact hlookup_cons_self t₀ nT []
      have hupd1 : hupdate s.heap t₀ (fun n => ⟨n.val, n.next, none⟩)
          = L ++ [(t₀, ⟨nT.val, nT.next, none⟩)] := by
        rw [hheap, hupdate_append, hupdate_not_mem L t₀ _ htnotL, hupdate_cons_eq]
        rfl
      rcases hLlast : L.getLast? with _ | ⟨p₀, nP⟩
      · -- the popped node is the only node
        have hLnil : L = [] := List.getLast?_eq_none_iff.mp hLlast
        subst hLnil
        have hTprev : nT.prev = none := by
          have h2 := hdecomp.2.2
          rw [hLlast] at h2
          exact h2
        refine ⟨some nT.val, ⟨[], none, none⟩, ?_, ?_, ?_⟩
        · simp only [List4.popBack, htail, hlookT, hupd1, hTprev, hTnext,
            List.nil_append]
          rw [if_pos (by simp [noStoredRef, hTnext])]
          simp [herase_cons_self]
        · exact ⟨rfl, List.nodup_nil, rfl, rfl⟩
        · right
          exact ⟨rfl, by simp [hheap]⟩
      · -- at least two nodes
        have hLne : L ≠ [] := by
          intro h; rw [h] at hLlast; simp at hLlast
        have hTprev : nT.prev = some p₀ := by
          have h2 := hdecomp.2.2
          rw [hLlast] at h2
          exact h2
        have hkeysLlast : (L.map Prod.fst).getLast? = some p₀ := by
          rw [List.getLast?_map, hLlast]
          rfl
        have hp0mem : p₀ ∈ L.map Prod.fst := List.mem_of_mem_getLast? hkeysLlast
        have hp0t : p₀ ≠ t₀ := fun h => htnotL (h ▸ hp0mem)
        have hupd2 : hupdate (L ++ [(t₀, (⟨nT.val, nT.next, none⟩ : Node4 α))]) p₀
              (fun n => ⟨n.val, none, n.prev⟩)
            = hupdate L p₀ (fun n => ⟨n.val, none, n.prev⟩)
              ++ [(t₀, ⟨nT.val, nT.next, none⟩)] := by
          rw [hupdate_append, hupdate_cons_ne _ _ _ _ _ (Ne.symm hp0t)]
          rfl
        have hXchain : dlinked none
            (hupdate L p₀ (fun n => ⟨n.val, none, n.prev⟩)) none = true :=
          dlinked_retarget_last none L none (some t₀) p₀ hLchain hnodupL hkeysLlast
        have hXkeys : (hupdate L p₀
            (fun n => ⟨n.val, none, n.prev⟩)).map Prod.fst = L.map Prod.fst :=
          hupdate_keys L p₀ _
        have hheadx : ∃ k₀, s.head = some k₀ ∧ k₀ ∈ L.map Prod.fst := by
          have h0 := hwf.headOk
          rw [hheap, List.map_append] at h0
          cases hLk : L.map Prod.fst with
          | nil => exact absurd (List.map_eq_nil_iff.mp hLk) hLne
          | cons k₀ ks =>
            rw [hLk] at h0
            exact ⟨k₀, by simpa using h0, by simp [hLk]⟩
        obtain ⟨k₀, hk₀, hk₀mem⟩ := hheadx
        have hk₀t : k₀ ≠ t₀ := fun h => htnotL (h ▸ hk₀mem)
        have hnsr : noStoredRef
            ⟨hupdate L p₀ (fun n => ⟨n.val, none, n.prev⟩)
              ++ [(t₀, (⟨nT.val, nT.next, none⟩ : Node4 α))], s.head, some p₀⟩ t₀ = true := by
          rw [noStoredRef, Bool.and_eq_true, Bool.and_eq_true]
          refine ⟨⟨by rw [hk₀]; simp [hk₀t], by simp [hp0t]⟩, ?_⟩
          rw [List.all_eq_true]
          intro p hp
          rcases List.mem_append.mp hp with h1 | h1
          · have hrefs := dlinked_refs _ none none hXchain p h1
            simp only [Bool.and_eq_true, decide_eq_true_eq]
            constructor
            · rcases hrefs.2 with h2 | ⟨c, hc, hc'⟩
              · simp [h2]
              · rw [hc']
                simp only [ne_eq, Option.some.injEq]
                intro h3
                subst h3
                rw [hXkeys] at hc
                exact htnotL hc
            · rcases hrefs.1 with h2 | ⟨c, hc, hc'⟩
              · simp [h2]
              · rw [hc']
                simp only [ne_eq, Option.some.injEq]
                intro h3
                subst h3
                rw [hXkeys] at hc
                exact htnotL hc
          · have hp1 : p = (t₀, (⟨nT.val, nT.next, none⟩ : Node4 α)) := by
              simpa using h1
            subst hp1
            simp only [Bool.and_eq_true, decide_eq_true_eq]
            exact ⟨by simp [hTnext], by simp⟩
        have herase2 : herase (hupdate L p₀ (fun n => ⟨n.val, none, n.prev⟩)
              ++ [(t₀, (⟨nT.val, nT.next, none⟩ : Node4 α))]) t₀
            = hupdate L p₀ (fun n => ⟨n.val, none, n.prev⟩) := by
          rw [herase_append_not_mem _ _ t₀ (by rw [hXkeys]; exact htnotL)]
          simp [herase]
        refine ⟨some nT.val,
          ⟨hupdate L p₀ (fun n => ⟨n.val, none, n.prev⟩), s.head, some p₀⟩, ?_, ?_, ?_⟩
        · simp only [List4.popBack, htail, hlookT, hupd1, hTprev, hupd2]
          rw [if_pos hnsr, herase2]
        · constructor
          · exact hXchain
          · rw [hXkeys]; exact hnodupL
          · rw [hk₀, hXkeys]
            cases hLk : L.map Prod.fst with
            | nil => exact absurd (List.map_eq_nil_iff.mp hLk) hLne
            | cons x xs =>
              rw [hLk] at hk₀mem
              have h0 := hwf.headOk
              rw [hheap, List.map_append, hLk] at h0
              rw [hk₀] at h0
              simpa using h0
          · rw [hXkeys]
            exact hkeysLlast.symm
        · right
          refine ⟨rfl, ?_⟩
          have hlen : (hupdate L p₀ (fun n => (⟨n.val, none, n.prev⟩ : Node4 α))).length
              = L.length := by
            have h0 := congrArg List.length hXkeys
            simpa using h0
          simp [hheap, hlen]

/-- The operation alphabet of fourth.rs (peeks excluded: the claims below
concern operation sequences with no outstanding peek reference). -/
inductive DOp (α : Type) where
  | pushFront : α → DOp α
  | pushBack : α → DOp α
  | popFront : DOp α
  | popBack : DOp α

/-- Run a sequence of fourth.rs operations, collecting every pop result in
order; `none` signals a panic of the model (a failed `Rc::try_unwrap` or an
impossible heap lookup). -/
def runD : List4 α → List (DOp α) → Option (List4 α × List (Option α))
  | s, [] => some (s, [])
  | s, DOp.pushFront v :: rest => runD (s.pushFront v) rest
  | s, DOp.pushBack v :: rest => runD (s.pushBack v) rest
  | s, DOp.popFront :: rest =>
    match s.popFront with
    | none => none
    | some (o, s') =>
      match runD s' rest with
      | none => none
      | some (t, outs) => some (t, o :: outs)
  | s, DOp.popBack :: rest =>
    match s.popBack with
    | none => none
    | some (o, s') =>
      match runD s' rest with
      | none => none
      | some (t, outs) => some (t, o :: outs)

/-- Running any fourth.rs operation sequence from a well-formed state never
panics and ends well-formed. -/
theorem runD_wf : ∀ (ops : List (DOp α)) (s : List4 α), DWF s →
    ∃ s' outs, runD s ops = some (s', outs) ∧ DWF s' := by
  intro ops
  induction ops with
  | nil => intro s hwf; exact ⟨s, [], rfl, hwf⟩
  | cons op rest ih =>
    intro s hwf
    cases op with
    | pushFront v =>
      obtain ⟨t, outs, hrun, hwft⟩ := ih (s.pushFront v) (dpushFront_wf s v hwf)
      exact ⟨t, outs, by simp [runD, hrun], hwft⟩
    | pushBack v =>
      obtain ⟨t, outs, hrun, hwft⟩ := ih (s.pushBack v) (dpushBack_wf s v hwf)
      exact ⟨t, outs, by simp [runD, hrun], hwft⟩
    | popFront =>
      obtain ⟨o, s', hpop, hwf', _⟩ := dpopFront_wf s hwf
      obtain ⟨t, outs, hrun, hwft⟩ := ih s' hwf'
      exact ⟨t, o :: outs, by simp [runD, hpop, hrun], hwft⟩
    | popBack =>
      obtain ⟨o, s', hpop, hwf', _⟩ := dpopBack_wf s hwf
      obtain ⟨t, outs, hrun, hwft⟩ := ih s' hwf'
      exact ⟨t, o :: outs, by simp [runD, hpop, hrun], hwft⟩

/-- Claim C1: for every sequence of `push_front`/`push_back`/`pop_front`/
`pop_back` on the SharedDeque (fourth.rs) with no outstanding peek reference,
the internal reclamation step never fails: before `Rc::try_unwrap` the pop
has severed both the list pointer and the neighbour's back/forward link into
the removed node, so the remaining strong count is 1 and the
invariant-violation (`unwrap` panic) branch is unreachable — the whole run
produces a result. -/
theorem claim_C1_reclamation_never_fails (α : Type) (ops : List (DOp α)) :
    (runD (List4.new : List4 α) ops).isSome = true := by
  obtain ⟨s', outs, hrun, _⟩ := runD_wf ops List4.new dwf_new
  rw [hrun]
  rfl

/-- A pop-only alphabet, used to state that the drained deque keeps
answering `None` to every further pop of either flavour. -/
inductive PopSide where
  | front : PopSide
  | back : PopSide

def popSideOp {α : Type} : PopSide → DOp α
  | PopSide.front => DOp.popFront
  | PopSide.back => DOp.popBack

theorem runD_pops_on_empty : ∀ (ps : List PopSide),
    runD (List4.new : List4 Int) (ps.map popSideOp)
      = some (List4.new, ps.map fun _ => none) := by
  intro ps
  induction ps with
  | nil => rfl
  | cons p ps ih =>
    cases p with
    | front =>
      have hpop : (List4.new : List4 Int).popFront = some (none, List4.new) := rfl
      simp [runD, popSideOp, hpop, ih]
    | back =>
      have hpop : (List4.new : List4 Int).popBack = some (none, List4.new) := rfl
      simp [runD, popSideOp, hpop, ih]

/-- Claim C7: on the SharedDeque (fourth.rs), the sequence `push_front(1)`,
`push_back(2)`, `push_front(3)`, `push_back(4)` produces front-to-back order
`3, 1, 2, 4`; then `pop_front`, `pop_back`, `pop_front`, `pop_back` return
`3, 4, 1, 2` in that order and land on the empty deque; and every subsequent
sequence of `pop_front`/`pop_back` calls on the now-empty deque returns
`None` each time. -/
theorem claim_C7_deque_order :
    (((runD (List4.new : List4 Int)
          [DOp.pushFront 1, DOp.pushBack 2, DOp.pushFront 3, DOp.pushBack 4]).map
        fun r => r.1.frontToBack) = some (some [3, 1, 2, 4])) ∧
    (runD (List4.new : List4 Int)
        [DOp.pushFront 1, DOp.pushBack 2, DOp.pushFront 3, DOp.pushBack 4,
          DOp.popFront, DOp.popBack, DOp.popFront, DOp.popBack]
      = some (List4.new, [some 3, some 4, some 1, some 2])) ∧
    (∀ ps : List PopSide,
      runD (List4.new : List4 Int) (ps.map popSideOp)
        = some (List4.new, ps.map fun _ => none)) := by
  refine ⟨by rfl, by rfl, runD_pops_on_empty⟩

/-! ## Destructor models (claim C4)

first.rs and second.rs implement `Drop for List` as an explicit loop that
takes each node's `next` out before the box is dropped; fourth.rs implements
it as `while self.pop_front().is_some() {}`.  third.rs and fifth.rs have no
`Drop` impl at all, so their lists are destroyed by the compiler-generated
destructor chain: dropping the head handle drops the node, whose field drop
drops the next handle, and so on — one nested destructor call per node. -/

mutual

/-- Nested drop-glue depth of dropping a first.rs `Link`: a `Box` drop is one
call frame, which in turn drops the node's fields. -/
def linkDropDepth1 : Link1 → Nat
  | Link1.Empty => 0
  | Link1.More n => 1 + nodeDropDepth1 n

def nodeDropDepth1 : Node1 → Nat
  | Node1.mk _ next => linkDropDepth1 next

end

/-- The `Drop for List` loop of first.rs: each iteration replaces the boxed
node's `next` with `Empty` and then lets the box fall out of scope; the list
collects the drop-glue depth of every box freed by the loop. -/
def dropLoop1 : Link1 → List Nat
  | Link1.Empty => []
  | Link1.More (Node1.mk v next) =>
    linkDropDepth1 (Link1.More (Node1.mk v Link1.Empty)) :: dropLoop1 next

mutual

theorem dropLoop1_link : ∀ lk : Link1,
    dropLoop1 lk = List.replicate (linkToList1 lk).length 1
  | Link1.Empty => by simp [dropLoop1, linkToList1]
  | Link1.More n => dropLoop1_node n

theorem dropLoop1_node : ∀ n : Node1,
    dropLoop1 (Link1.More n) = List.replicate (nodeToList1 n).length 1
  | Node1.mk v next => by
      have h := dropLoop1_link next
      simp [dropLoop1, nodeToList1, linkToList1, h, List.replicate_succ,
        linkDropDepth1, nodeDropDepth1]

end

/-- Nested drop-glue depth of dropping a second.rs `Link` (a `Box` chain). -/
def linkDropDepth2 {α : Type} : Link2 α → Nat
  | none => 0
  | some (Node2.mk _ nx) => 1 + linkDropDepth2 nx

/-- The `Drop for List` loop of second.rs (`take()` based): depths of the
boxes freed by each iteration. -/
def dropLoop2 {α : Type} : Link2 α → List Nat
  | none => []
  | some (Node2.mk v nx) =>
    linkDropDepth2 (some (Node2.mk v none)) :: dropLoop2 nx

theorem dropLoop2_eq {α : Type} : ∀ lk : Link2 α,
    dropLoop2 lk = List.replicate (iterCollect (⟨lk⟩ : Iter2 α)).length 1
  | none => by simp [dropLoop2, iterCollect]
  | some (Node2.mk v nx) => by
      have h := dropLoop2_eq nx
      simp [dropLoop2, iterCollect, h, List.replicate_succ, linkDropDepth2]

/-- Nested drop-glue depth of the compiler-generated destructor of a
third.rs chain whose nodes are uniquely owned (every `Rc` count is 1, as
when a standalone list is destroyed): third.rs has no `Drop` impl, so each
`Rc` drop frees its node, whose field drop recursively drops the next
handle. -/
def rcDropDepth3 {α : Type} : Option (Node3 α) → Nat
  | none => 0
  | some (Node3.mk _ nx) => 1 + rcDropDepth3 nx

/-- A standalone persistent list of `n` nodes built by iterated `prepend`. -/
def pchain : Nat → List3 Int
  | 0 => List3.new
  | n + 1 => ((pchain n).prepend 0).1

theorem rcDropDepth3_pchain : ∀ n : Nat, rcDropDepth3 (pchain n).head = n := by
  intro n
  induction n with
  | zero => simp [pchain, List3.new, rcDropDepth3]
  | succ n ih => simp [pchain, List3.prepend, rcDropDepth3, ih, Nat.add_comm]

/-- Walk depth of the compiler-generated destructor of a fifth.rs list
(fifth.rs has no `Drop` impl): dropping `head` drops the whole `Box` chain,
one nested destructor call per node (`fuel` bounds the walk; the heap size
suffices on well-formed states). -/
def qDepthAux (h : List (Nat × Node5 α)) : Option Nat → Nat → Nat
  | none, _ => 0
  | some _, 0 => 0
  | some a, fuel + 1 =>
    match hlookup h a with
    | none => 0
    | some n => 1 + qDepthAux h n.next fuel

def List5.dropDepth (s : List5 α) : Nat :=
  qDepthAux s.heap s.head s.heap.length

theorem qDepthAux_chain : ∀ (l₂ l₁ : List (Nat × Node5 α)) (fuel : Nat),
    qlinked l₂ none = true → ((l₁ ++ l₂).map Prod.fst).Nodup → l₂.length ≤ fuel →
    qDepthAux (l₁ ++ l₂) ((l₂.map Prod.fst).head?) fuel = l₂.length := by
  intro l₂
  induction l₂ with
  | nil => intro l₁ fuel _ _ _; simp [qDepthAux]
  | cons q t ih =>
    intro l₁ fuel hchain hnodup hfuel
    obtain ⟨a, n⟩ := q
    obtain ⟨fuel', rfl⟩ : ∃ f, fuel = f + 1 := by
      cases fuel with
      | zero => simp at hfuel
      | succ f => exact ⟨f, rfl⟩
    have hamem : a ∉ l₁.map Prod.fst := by
      rw [List.map_append, List.nodup_append] at hnodup
      intro hmem
      exact hnodup.2.2 hmem (by simp)
    have hlook : hlookup (l₁ ++ (a, n) :: t) a = some n := by
      rw [hlookup_append_right l₁ _ a hamem]
      exact hlookup_cons_self a n t
    simp only [List.map_cons, List.head?_cons, qDepthAux, hlook]
    have hnext : n.next = (t.map Prod.fst).head? := by
      cases t with
      | nil =>
        rw [qlinked_singleton] at hchain
        simpa using hchain
      | cons r t' =>
        obtain ⟨b, m⟩ := r
        rw [qlinked_cons_cons, Bool.and_eq_true, decide_eq_true_eq] at hchain
        simpa using hchain.1
    have hchain' : qlinked t none = true := by
      cases t with
      | nil => rfl
      | cons r t' =>
        rw [qlinked_cons_cons, Bool.and_eq_true] at hchain
        exact hchain.2
    have hnodup' : (((l₁ ++ [(a, n)]) ++ t).map Prod.fst).Nodup := by
      rw [List.append_assoc]
      simpa using hnodup
    have hIH := ih (l₁ ++ [(a, n)]) fuel' hchain' hnodup' (by simpa using hfuel)
    rw [List.append_assoc] at hIH
    simp only [List.singleton_append] at hIH
    rw [hnext, hIH]
    simp [Nat.add_comm]

theorem qdropDepth_eq_len (s : List5 α) (hwf : QWF s) :
    s.dropDepth = s.heap.length := by
  have h := qDepthAux_chain s.heap [] s.heap.length hwf.chain (by simpa using hwf.nodup)
    (le_refl _)
  simp only [List.nil_append] at h
  rw [List5.dropDepth, hwf.headOk, h]

/-- A fifth.rs queue of `n` nodes built by iterated `push` (the `getD`
fallback is never taken: `push` succeeds on every well-formed state). -/
def qpushN : Nat → List5 Int
  | 0 => List5.new
  | n + 1 => ((qpushN n).push 0).getD (qpushN n)

theorem qpushN_wf_len : ∀ n : Nat, QWF (qpushN n) ∧ (qpushN n).heap.length = n := by
  intro n
  induction n with
  | zero => exact ⟨qwf_new, rfl⟩
  | succ n ih =>
    obtain ⟨s', hpush, hwf', hvals⟩ := qpush_wf (qpushN n) 0 ih.1
    have hq : qpushN (n + 1) = s' := by
      simp [qpushN, hpush]
    refine ⟨hq ▸ hwf', ?_⟩
    rw [hq]
    have h1 := congrArg List.length hvals
    simp only [List5.vals, List.length_map, List.length_append, List.length_cons,
      List.length_nil] at h1
    omega

theorem qpushN_dropDepth (n : Nat) : (qpushN n).dropDepth = n := by
  obtain ⟨hwf, hlen⟩ := qpushN_wf_len n
  rw [qdropDepth_eq_len _ hwf, hlen]

/-- The `Drop for List` loop of fourth.rs (`while self.pop_front().is_some()`),
with explicit fuel; it stops (returning the reached state) when a pop yields
`None`, and `none` signals a panicking pop. -/
def dDrain {α : Type} : List4 α → Nat → Option (List4 α)
  | s, 0 => some s
  | s, fuel + 1 =>
    match s.popFront with
    | none => none
    | some (none, s') => some s'
    | some (some _, s') => dDrain s' fuel

/-- Decidable drain check: within `heap.length + 1` loop iterations the
fourth.rs drop loop terminates with an empty heap and no panic. -/
def dDrainOk (s : List4 α) : Bool :=
  match dDrain s (s.heap.length + 1) with
  | none => false
  | some s' => s'.heap.isEmpty

theorem dDrain_empties : ∀ (n : Nat) (s : List4 α), DWF s → s.heap.length = n →
    ∃ s', dDrain s (n + 1) = some s' ∧ s'.heap = [] := by
  intro n
  induction n with
  | zero =>
    intro s hwf hlen
    have hh : s.heap = [] := List.length_eq_zero.mp hlen
    obtain ⟨o, s', hpop, _, hcase⟩ := dpopFront_wf s hwf
    rcases hcase with ⟨_, ho, hs⟩ | ⟨hsome, hlen'⟩
    · refine ⟨s, ?_, hh⟩
      subst ho
      rw [hs] at hpop
      simp [dDrain, hpop]
    · omega
  | succ n ih =>
    intro s hwf hlen
    obtain ⟨o, s', hpop, hwf', hcase⟩ := dpopFront_wf s hwf
    rcases hcase with ⟨hh, _, _⟩ | ⟨hsome, hlen'⟩
    · rw [hh] at hlen; simp at hlen
    · obtain ⟨v, rfl⟩ := Option.isSome_iff_exists.mp hsome
      obtain ⟨s'', hdrain, hempty⟩ := ih s' hwf' (by omega)
      have hstep : dDrain s (n + 1 + 1) = dDrain s' (n + 1) := by
        show (match s.popFront with
          | none => none
          | some (none, s₁) => some s₁
          | some (some _, s₁) => dDrain s₁ (n + 1)) = dDrain s' (n + 1)
        rw [hpop]
      exact ⟨s'', by rw [hstep, hdrain], hempty⟩

theorem dDrainOk_of_wf (s : List4 α) (hwf : DWF s) : dDrainOk s = true := by
  obtain ⟨s', hdrain, hempty⟩ := dDrain_empties s.heap.length s hwf rfl
  rw [dDrainOk, hdrain]
  dsimp only
  rw [hempty]
  rfl

/-- Claim C4 counterexample: the claim "for every variant, destruction
completes with call-stack depth bounded independently of the list length"
is false on this code: third.rs (PersistentList) and fifth.rs
(ExclusiveQueue) implement no `Drop` at all, so destroying a standalone
chain of `n` nodes runs the compiler-generated destructor chain to nesting
depth exactly `n` — unbounded in the length. -/
theorem claim_C4_counterexample :
    (¬ ∃ B : Nat, ∀ n : Nat, rcDropDepth3 (pchain n).head ≤ B) ∧
    (¬ ∃ B : Nat, ∀ n : Nat, (qpushN n).dropDepth ≤ B) := by
  constructor
  · rintro ⟨B, hB⟩
    have h := hB (B + 1)
    rw [rcDropDepth3_pchain] at h
    omega
  · rintro ⟨B, hB⟩
    have h := hB (B + 1)
    rw [qpushN_dropDepth] at h
    omega

/-- Claim C4 (amended): the variants with an explicit `Drop` impl tear down
iteratively — the first.rs and second.rs drop loops free one box per
iteration and every freed box has drop-glue depth exactly 1 (its `next` was
taken out first), and the fourth.rs drop loop (`while pop_front().is_some()`)
empties the heap of any reachable deque within `heap.length + 1` iterations
without panicking; but third.rs and fifth.rs have no `Drop` impl, and their
default destructors recurse to depth exactly the chain length. -/
theorem claim_C4_amended :
    (∀ lk : Link1, dropLoop1 lk = List.replicate (linkToList1 lk).length 1) ∧
    (∀ (α : Type) (lk : Link2 α),
        dropLoop2 lk = List.replicate (iterCollect (⟨lk⟩ : Iter2 α)).length 1) ∧
    (∀ (α : Type) (ops : List (DOp α)) (s : List4 α) (outs : List (Option α)),
        runD List4.new ops = some (s, outs) → dDrainOk s = true) ∧
    (∀ n : Nat, rcDropDepth3 (pchain n).head = n ∧ (qpushN n).dropDepth = n) := by
  refine ⟨dropLoop1_link, fun α => dropLoop2_eq, ?_,
    fun n => ⟨rcDropDepth3_pchain n, qpushN_dropDepth n⟩⟩
  intro α ops s outs h
  obtain ⟨s₀, outs₀, hrun, hwf⟩ := runD_wf ops List4.new dwf_new
  rw [h] at hrun
  injection hrun with h1
  injection h1 with hs ho
  subst hs
  exact dDrainOk_of_wf s hwf

/-- Witness for C4's amended claim at a concrete input: a one-element deque
reached by one `push_front`, drained by the drop loop. -/
theorem claim_C4_witness :
    runD (List4.new : List4 Int) [DOp.pushFront 1]
        = some (⟨[(1, ⟨1, none, none⟩)], some 1, some 1⟩, []) ∧
    dDrainOk (⟨[(1, ⟨1, none, none⟩)], some 1, some 1⟩ : List4 Int) = true :=
  ⟨rfl, claim_C4_amended.2.2.1 Int [DOp.pushFront 1] _ [] rfl⟩

end TooManyLists
